import Mathlib

/-!
Verification of the route-search subsystem (Q-learning router and ant-colony
router) of the multi-criteria network routing panel.

The Python sources are shallowly embedded: the undirected `networkx` graph
becomes an edge list with optional per-edge attributes (Python's
`dict.get(key, default)` is modelled by `Option` plus an explicit default);
floats become rationals, with `float("inf")` modelled by `Option ℚ` where
`none` stands for plus infinity; the stochastic choices (`random.random`,
`random.choice`, `random.choices`) are modelled by an oracle that, at each
step, picks an element of exactly the candidate list the Python code draws
from (the support of its distribution), so every theorem quantifies over all
possible random outcomes; loops become fuel-based recursion with the same
step budgets as the source.
-/

/-- Consecutive pairs of a list: the edges traversed by a path,
`pairs [a,b,c] = [(a,b),(b,c)]`. -/
def pairs : List ℕ → List (ℕ × ℕ)
  | u :: v :: rest => (u, v) :: pairs (v :: rest)
  | _ => []

/-- Minimum on `Option ℚ` where `none` stands for `float("inf")`. -/
def minO : Option ℚ → Option ℚ → Option ℚ
  | none, b => b
  | some a, none => some a
  | some a, some b => some (min a b)

/-- Python `min_bw >= demand_bw` where `min_bw` may be `float("inf")`. -/
def demandOk : Option ℚ → ℚ → Bool
  | none, _ => true
  | some m, d => decide (d ≤ m)

/-- Python `min_bw < demand_bw` where `min_bw` may be `float("inf")`. -/
def ltOpt : Option ℚ → ℚ → Bool
  | none, _ => false
  | some m, d => decide (m < d)

/-- Python `cost < best_cost` where `best_cost` may be `float("inf")`. -/
def ltInf (c : ℚ) : Option ℚ → Bool
  | none => true
  | some b => decide (c < b)

/-- Attributes stored on one undirected edge; each may be absent, since the
Python code reads them with `edge.get(attr, default)`. -/
structure EdgeData where
  delay : Option ℚ
  reliability : Option ℚ
  bandwidth : Option ℚ
deriving DecidableEq

/-- The `networkx.Graph` supplied by the topology loader: nodes carry an
optional `reliability` attribute, edges are undirected and listed once. -/
structure Network where
  nodes : List (ℕ × Option ℚ)
  edges : List (ℕ × ℕ × EdgeData)
deriving DecidableEq

/-- Undirected edge lookup, `graph.edges[u, v]`: an edge stored in either
orientation matches. `none` corresponds to a Python `KeyError`. -/
def Network.edge? (g : Network) (u v : ℕ) : Option EdgeData :=
  match g.edges.find? (fun e => decide ((e.1 = u ∧ e.2.1 = v) ∨ (e.1 = v ∧ e.2.1 = u))) with
  | some e => some e.2.2
  | none => none

/-- Adjacency, `graph.neighbors(u)`. -/
def Network.neighbors (g : Network) (u : ℕ) : List ℕ :=
  g.edges.filterMap (fun e =>
    if e.1 = u then some e.2.1 else if e.2.1 = u then some e.1 else none)

/-- Edge bandwidth with default 0: `graph.edges[u, v].get("bandwidth", 0)`,
as read by `QLearningRouter.train` and by `ACORouter`. -/
def bw0 (g : Network) (u v : ℕ) : ℚ :=
  match g.edge? u v with
  | some d => d.bandwidth.getD 0
  | none => 0

/-- Edge bandwidth with default `float("inf")` (`none`):
`graph.edges[u, v].get("bandwidth", float("inf"))`, as read by
`QLearningRouter.get_path_metrics`. -/
def bwInf (g : Network) (u v : ℕ) : Option ℚ :=
  (g.edge? u v).bind (fun d => d.bandwidth)

/-- Edge reliability with default 1: `graph.edges[u, v].get("reliability", 1.0)`. -/
def relD (g : Network) (u v : ℕ) : ℚ :=
  ((g.edge? u v).bind (fun d => d.reliability)).getD 1

/-- Node reliability with default 1: `graph.nodes[n].get("reliability", 1.0)`. -/
def nodeRelD (g : Network) (n : ℕ) : ℚ :=
  match g.nodes.find? (fun x => decide (x.1 = n)) with
  | some x => x.2.getD 1
  | none => 1

/-- Bottleneck bandwidth of a path when each edge is read with default 0,
starting from `float("inf")` (`none`). -/
def bottleneck0 (g : Network) (p : List ℕ) : Option ℚ :=
  (pairs p).foldl (fun acc uv => minO acc (some (bw0 g uv.1 uv.2))) none

/-- Bottleneck bandwidth of a path when each edge is read with default
`float("inf")`, starting from `float("inf")` (`none`). -/
def bottleneckInf (g : Network) (p : List ℕ) : Option ℚ :=
  (pairs p).foldl (fun acc uv => minO acc (bwInf g uv.1 uv.2)) none

/-- Result of `calculate_path_attributes`. -/
structure PathAttrs where
  total_delay : ℚ
  reliability_cost : ℚ
  resource_cost : ℚ
deriving DecidableEq

/-- Modelled from the spec: the shared cost model `src/metrics.py`
(`calculate_path_attributes`, `calculate_weighted_cost`) is not among the
available sources; spec section 4.1 fixes only that both are side-effect-free
functions of the graph, the path and the configured weights, shared verbatim
by every engine. They are therefore represented as an abstract pair of pure
functions; the graph and the weight configuration, fixed per router instance,
are absorbed into the functions. -/
structure CostModel where
  attrs : List ℕ → PathAttrs
  wcost : PathAttrs → ℚ

/-- Scalar path cost: `calculate_weighted_cost(calculate_path_attributes(g, p), w)`. -/
def CostModel.cost (m : CostModel) (p : List ℕ) : ℚ :=
  m.wcost (m.attrs p)

/-!  Q-learning router (`src/algorithms/q_learning.py`). -/

/-- One random draw of the epsilon-greedy rule: `explore` is the outcome of
`random.random() < self.epsilon`, `idx` selects the element that
`random.choice(actions)` would return. -/
structure Choice where
  explore : Bool
  idx : ℕ

/-- The Q-table `Q[state][action]`, a dict of dicts. -/
abbrev QTable := List (ℕ × List (ℕ × ℚ))

/-- Row `Q[state]` (empty when `state` is absent, which cannot happen for
graph nodes). -/
def qrow (Q : QTable) (s : ℕ) : List (ℕ × ℚ) :=
  match Q.find? (fun e => decide (e.1 = s)) with
  | some e => e.2
  | none => []

/-- Entry `Q[state][action]` of a row (0 when absent). -/
def qval (row : List (ℕ × ℚ)) (a : ℕ) : ℚ :=
  match row.find? (fun e => decide (e.1 = a)) with
  | some e => e.2
  | none => 0

/-- Assignment `Q[s][a] = v` (no effect when the key is absent, which cannot
happen for the actions the router selects). -/
def setQ (Q : QTable) (s a : ℕ) (v : ℚ) : QTable :=
  Q.map (fun e =>
    if e.1 = s then (e.1, e.2.map (fun f => if f.1 = a then (f.1, v) else f)) else e)

/-- Initial Q-table: `{node: {nbr: 0.0 for nbr in graph.neighbors(node)} for node in graph.nodes}`. -/
def initQ (g : Network) : QTable :=
  g.nodes.map (fun n => (n.1, (g.neighbors n.1).map (fun v => (v, (0 : ℚ)))))

/-- Python `max(l, key=f)` seeded with a current best: keeps the first
maximum. -/
def argmaxBy (f : ℕ → ℚ) : List ℕ → ℕ → ℕ
  | [], best => best
  | a :: rest, best => argmaxBy f rest (if f best < f a then a else best)

/-- Python `max(row.values(), default=0.0)`. -/
def maxQrow (row : List (ℕ × ℚ)) : ℚ :=
  match row with
  | [] => 0
  | e :: rest => rest.foldl (fun m f => max m f.2) e.2

/-- Loop-free candidate actions: `[a for a in self.Q[state] if a not in visited]`. -/
def qlActions (Q : QTable) (state : ℕ) (visited : List ℕ) : List ℕ :=
  ((qrow Q state).map Prod.fst).filter (fun a => decide (a ∉ visited))

/-- Epsilon-greedy selection over a non-empty action list: explore uniformly
(the oracle index picks the element) or exploit `max(actions, key=lambda a: Q[state][a])`. -/
def qlChoose (row : List (ℕ × ℚ)) (actions : List ℕ) (c : Choice) : ℕ :=
  match actions with
  | [] => 0
  | a0 :: rest =>
    if c.explore then actions.getD (c.idx % actions.length) a0
    else argmaxBy (fun a => qval row a) rest a0

/-- The pair `(best_path, best_cost)` retained by a router; `best_cost = none`
stands for `float("inf")`. -/
structure BestState where
  best_path : Option (List ℕ)
  best_cost : Option ℚ
deriving DecidableEq

/-- Hyperparameters of `QLearningRouter.__init__`. -/
structure QCfg where
  alpha : ℚ
  gamma : ℚ
  initial_epsilon : ℚ
  min_epsilon : ℚ
  epsilon_decay : ℚ
  episodes : ℕ
  max_steps : ℕ
  step_penalty : ℚ
  progress_bonus : ℚ
deriving DecidableEq

/-- The reward of one step together with the updated best state: the base
reward `step_penalty + progress_bonus`, replaced on reaching `dst` — after the
feasibility check `min_bw_on_path >= demand_bw` — by `2000.0 / cost` with the
best state updated when `cost < best_cost`, or by the fixed `-1.0` when the
bandwidth constraint fails. `cost` is the weighted cost of the episode path
clamped below by `1e-6` (`cost = max(cost, 1e-6)` in the source). -/
def qlBestUpd (cfg : QCfg) (cm : CostModel) (demand : ℚ) (dst action : ℕ)
    (path' : List ℕ) (minbw' : Option ℚ) (b : BestState) : ℚ × BestState :=
  if action = dst then
    if demandOk minbw' demand then
      ((2000 : ℚ) / max (cm.cost path') (1 / 1000000),
       if ltInf (max (cm.cost path') (1 / 1000000)) b.best_cost then
         BestState.mk (some path') (some (max (cm.cost path') (1 / 1000000)))
       else b)
    else ((-1 : ℚ), b)
  else (cfg.step_penalty + cfg.progress_bonus, b)

/-- The body of the `while state != dst and steps < max_steps` training loop
of `QLearningRouter.train`, one episode. `fuel` is `max_steps - steps`, `k`
indexes the oracle. Returns the updated Q-table and best-path state. -/
def qlLoop (cfg : QCfg) (cm : CostModel) (g : Network) (dst : ℕ) (demand : ℚ)
    (o : ℕ → Choice) :
    ℕ → ℕ → ℕ → List ℕ → List ℕ → Option ℚ → QTable → BestState → QTable × BestState
  | 0, _, _, _, _, _, Q, b => (Q, b)
  | fuel + 1, k, state, visited, path, minbw, Q, b =>
    if state = dst then (Q, b)
    else
      let actions := qlActions Q state visited
      if actions = [] then (Q, b)
      else
        let action := qlChoose (qrow Q state) actions (o k)
        let minbw' := minO minbw (some (bw0 g state action))
        let rb := qlBestUpd cfg cm demand dst action (path ++ [action]) minbw' b
        let old := qval (qrow Q state) action
        let Q' := setQ Q state action
          (old + cfg.alpha * (rb.1 + cfg.gamma * maxQrow (qrow Q action) - old))
        qlLoop cfg cm g dst demand o fuel (k + 1) action (visited ++ [action])
          (path ++ [action]) minbw' Q' rb.2

/-- One training episode: starts at `src` with `visited = {src}`,
`path = [src]`, `min_bw_on_path = inf`, budget `max_steps`. -/
def qlEpisode (cfg : QCfg) (cm : CostModel) (g : Network) (src dst : ℕ) (demand : ℚ)
    (o : ℕ → Choice) (Q : QTable) (b : BestState) : QTable × BestState :=
  qlLoop cfg cm g dst demand o cfg.max_steps 0 src [src] [src] none Q b

/-- Mutable state of a `QLearningRouter` instance. -/
structure QLearningRouter where
  Q : QTable
  epsilon : ℚ
  best_path : Option (List ℕ)
  best_cost : Option ℚ
deriving DecidableEq

/-- `QLearningRouter.__init__`: zero Q-table over (node, neighbor) pairs,
`epsilon = initial_epsilon`, no best path. -/
def QLearningRouter.init (cfg : QCfg) (g : Network) : QLearningRouter :=
  ⟨initQ g, cfg.initial_epsilon, none, none⟩

/-- The episode loop of `QLearningRouter.train`: runs `n` episodes (oracle
`O i` drives episode `i`, counted down), decaying epsilon after each. -/
def qlTrainGo (cfg : QCfg) (cm : CostModel) (g : Network) (src dst : ℕ) (demand : ℚ)
    (O : ℕ → ℕ → Choice) : ℕ → QLearningRouter → QLearningRouter
  | 0, r => r
  | n + 1, r =>
    let ep := qlEpisode cfg cm g src dst demand (O n) r.Q ⟨r.best_path, r.best_cost⟩
    let eps' := if cfg.min_epsilon < r.epsilon then r.epsilon * cfg.epsilon_decay else r.epsilon
    qlTrainGo cfg cm g src dst demand O n ⟨ep.1, eps', ep.2.best_path, ep.2.best_cost⟩

/-- `QLearningRouter.train(src, dst, demand_bw)`. Note that it does not clear
`best_path`/`best_cost` on entry. -/
def QLearningRouter.train (cfg : QCfg) (cm : CostModel) (g : Network) (src dst : ℕ)
    (demand : ℚ) (O : ℕ → ℕ → Choice) (r : QLearningRouter) : QLearningRouter :=
  qlTrainGo cfg cm g src dst demand O cfg.episodes r

/-- `QLearningRouter.get_best_path(src, dst)`: the retained path; the
arguments are accepted for GUI symmetry only. -/
def QLearningRouter.get_best_path (r : QLearningRouter) : Option (List ℕ) :=
  r.best_path

/-- The PathMetrics dict returned by `QLearningRouter.get_path_metrics`. -/
inductive QLMetrics where
  | invalid (error : String)
  | ok (path : List ℕ) (total_delay total_reliability reliability_cost resource_cost
       total_cost : ℚ) (bottleneck_bw : Option ℚ) (hop_count node_count : ℕ)
deriving DecidableEq

/-- The `valid` field of the metrics dict. -/
def QLMetrics.is_valid : QLMetrics → Bool
  | .invalid _ => false
  | .ok _ _ _ _ _ _ _ _ _ => true

/-- `QLearningRouter.get_path_metrics(path, demand_bw)`: rejects `None`/short
paths, recomputes reliability and the bottleneck (bandwidth default
`float("inf")`), rejects a bottleneck below the demand, otherwise reports the
recomputed metrics. -/
def QLearningRouter.get_path_metrics (cm : CostModel) (g : Network)
    (path : Option (List ℕ)) (demand : ℚ) : QLMetrics :=
  match path with
  | none => .invalid "Geçerli bir yol bulunamadı"
  | some p =>
    if p.length < 2 then .invalid "Geçerli bir yol bulunamadı"
    else
      let attrs := cm.attrs p
      let trel1 := (pairs p).foldl (fun acc uv => acc * relD g uv.1 uv.2) 1
      let trel := p.foldl (fun acc n => acc * nodeRelD g n) trel1
      let minbw := bottleneckInf g p
      if ltOpt minbw demand then .invalid "Bant genişliği kısıtı sağlanmadı"
      else
        .ok p attrs.total_delay trel attrs.reliability_cost attrs.resource_cost
          (cm.wcost attrs) minbw (p.length - 1) p.length

/-- The loop of `QLearningRouter.run_multiple`: for each of `n` remaining
runs (run index `i` increasing), rebuild the Q-table from zeros, clear the
best path, set `epsilon = 1.0`, train, and fold the run's result into the
global best by unclamped recomputed cost. -/
def runMultipleGo (cfg : QCfg) (cm : CostModel) (g : Network) (src dst : ℕ) (demand : ℚ)
    (O : ℕ → ℕ → ℕ → Choice) :
    ℕ → ℕ → Option (List ℕ) × Option ℚ → QLearningRouter →
    (Option (List ℕ) × Option ℚ) × QLearningRouter
  | 0, _, gb, r => (gb, r)
  | n + 1, i, gb, _ =>
    let r1 : QLearningRouter := ⟨initQ g, 1, none, none⟩
    let r2 := QLearningRouter.train cfg cm g src dst demand (O i) r1
    let gb' :=
      match r2.best_path with
      | none => gb
      | some p =>
        let cost := cm.cost p
        if ltInf cost gb.2 then (some p, some cost) else gb
    runMultipleGo cfg cm g src dst demand O n (i + 1) gb' r2

/-- `QLearningRouter.run_multiple(src, dst, demand_bw, runs)`: returns the
global best path and the final router state (`best_path`/`best_cost` set to
the global best). -/
def QLearningRouter.run_multiple (cfg : QCfg) (cm : CostModel) (g : Network)
    (src dst : ℕ) (demand : ℚ) (O : ℕ → ℕ → ℕ → Choice) (runs : ℕ)
    (r : QLearningRouter) : Option (List ℕ) × QLearningRouter :=
  let gbr := runMultipleGo cfg cm g src dst demand O runs 0 (none, none) r
  (gbr.1.1, ⟨gbr.2.Q, gbr.2.epsilon, gbr.1.1, gbr.1.2⟩)

/-- The best path recorded by the single constituent run `i` of
`run_multiple`: training from the freshly reset state. -/
def qlRunResult (cfg : QCfg) (cm : CostModel) (g : Network) (src dst : ℕ) (demand : ℚ)
    (O : ℕ → ℕ → ℕ → Choice) (i : ℕ) : Option (List ℕ) :=
  (QLearningRouter.train cfg cm g src dst demand (O i) ⟨initQ g, 1, none, none⟩).best_path

/-!  Ant-colony router (`src/algorithms/aco_optimizer.py`). -/

/-- Hyperparameters of `ACORouter.__init__`. `alpha`/`beta` weight the
pheromone/heuristic terms, which shape only the roulette-wheel probabilities;
since the oracle ranges over the whole support of that distribution they do
not appear elsewhere in the model. -/
structure ACOCfg where
  ant_count : ℕ
  iterations : ℕ
  alpha : ℚ
  beta : ℚ
  evaporation : ℚ
  q : ℚ
deriving DecidableEq

/-- The pheromone dict `{(u, v): amount}`, keys unique (it is built and
updated only through dict assignment). -/
abbrev Pheromones := List ((ℕ × ℕ) × ℚ)

/-- Dict lookup `self.pheromones.get(e)`. -/
def phGet? (ph : Pheromones) (e : ℕ × ℕ) : Option ℚ :=
  (ph.find? (fun x => decide (x.1 = e))).map (fun x => x.2)

/-- Dict assignment `self.pheromones[e] = v`. -/
def phSet (ph : Pheromones) (e : ℕ × ℕ) (v : ℚ) : Pheromones :=
  if ph.any (fun x => decide (x.1 = e)) then
    ph.map (fun x => if x.1 = e then (x.1, v) else x)
  else ph ++ [(e, v)]

/-- `if e in self.pheromones: self.pheromones[e] += d`. -/
def phAdd (ph : Pheromones) (e : ℕ × ℕ) (d : ℚ) : Pheromones :=
  match phGet? ph e with
  | some v => phSet ph e (v + d)
  | none => ph

/-- `ACORouter._initialize_pheromones`: both orientations of every edge get 1.0. -/
def initPheromones (g : Network) : Pheromones :=
  g.edges.foldl (fun acc e => phSet (phSet acc (e.1, e.2.1) 1) (e.2.1, e.1) 1) []

/-- Evaporation step of `ACORouter._update_pheromones`: every entry is
multiplied by `1 - evaporation` and floored at 0.01. -/
def evaporate (evap : ℚ) (ph : Pheromones) : Pheromones :=
  ph.map (fun x =>
    let v := x.2 * (1 - evap)
    (x.1, if v < 1 / 100 then 1 / 100 else v))

/-- Deposit step of `ACORouter._update_pheromones` for one successful ant:
`q / (cost + 0.0001)` added to both orientations of every edge of its path,
when the key is present. -/
def depositPath (qc : ℚ) (ph : Pheromones) (pc : List ℕ × ℚ) : Pheromones :=
  let dep := qc / (pc.2 + 1 / 10000)
  (pairs pc.1).foldl (fun acc uv => phAdd (phAdd acc (uv.1, uv.2) dep) (uv.2, uv.1) dep) ph

/-- `ACORouter._update_pheromones(all_paths)`: evaporation, then deposits. -/
def updatePheromones (cfg : ACOCfg) (ph : Pheromones) (all_paths : List (List ℕ × ℚ)) :
    Pheromones :=
  all_paths.foldl (depositPath cfg.q) (evaporate cfg.evaporation ph)

/-- The walk loop of `ACORouter._construct_path`: at most `2 * len(nodes)`
steps; returns the path once the destination is reached; dies (`none`) on a
dead end or when the budget runs out. The roulette wheel is modelled by the
oracle index `o k` into `valid_neighbors` (both the weighted draw and the
`denominator == 0` fallback choose from exactly that list). -/
def acoConstructGo (g : Network) (dst : ℕ) (demand : ℚ) (o : ℕ → ℕ) :
    ℕ → ℕ → ℕ → List ℕ → List ℕ → Option (List ℕ)
  | 0, _, _, _, _ => none
  | fuel + 1, k, current, path, visited =>
    if current = dst then some path
    else
      let valid := (g.neighbors current).filter
        (fun n => decide (n ∉ visited) && demandOk (some (bw0 g current n)) demand)
      match valid with
      | [] => none
      | v0 :: _ =>
        let nxt := valid.getD (o k % valid.length) v0
        acoConstructGo g dst demand o fuel (k + 1) nxt (path ++ [nxt]) (visited ++ [nxt])

/-- `ACORouter._construct_path(src, dst, demand_bw)`. -/
def acoConstruct (g : Network) (src dst : ℕ) (demand : ℚ) (o : ℕ → ℕ) :
    Option (List ℕ) :=
  acoConstructGo g dst demand o (2 * g.nodes.length) 0 src [src] [src]

/-- The per-iteration ant loop of `ACORouter.train`: each of `n` remaining
ants (ant index `i` increasing, oracle `o i`) constructs a path; successful
paths are appended to `all_paths` with their cost and fold into the best. -/
def acoAnts (cm : CostModel) (g : Network) (src dst : ℕ) (demand : ℚ) (o : ℕ → ℕ → ℕ) :
    ℕ → ℕ → List (List ℕ × ℚ) → BestState → List (List ℕ × ℚ) × BestState
  | 0, _, acc, b => (acc, b)
  | n + 1, i, acc, b =>
    match acoConstruct g src dst demand (o i) with
    | none => acoAnts cm g src dst demand o n (i + 1) acc b
    | some p =>
      let cost := cm.cost p
      let b' := if ltInf cost b.best_cost then BestState.mk (some p) (some cost) else b
      acoAnts cm g src dst demand o n (i + 1) (acc ++ [(p, cost)]) b'

/-- The iteration loop of `ACORouter.train`: dispatch the ants, then update
the pheromones with this iteration's successful paths. -/
def acoIterGo (cfg : ACOCfg) (cm : CostModel) (g : Network) (src dst : ℕ) (demand : ℚ)
    (O : ℕ → ℕ → ℕ → ℕ) : ℕ → ℕ → Pheromones → BestState → Pheromones × BestState
  | 0, _, ph, b => (ph, b)
  | n + 1, it, ph, b =>
    let ab := acoAnts cm g src dst demand (O it) cfg.ant_count 0 [] b
    acoIterGo cfg cm g src dst demand O n (it + 1) (updatePheromones cfg ph ab.1) ab.2

/-- Mutable state of an `ACORouter` instance. -/
structure ACORouter where
  best_path : Option (List ℕ)
  best_cost : Option ℚ
  pheromones : Pheromones
deriving DecidableEq

/-- `ACORouter.__init__`: no best path, uniform initial pheromones. -/
def ACORouter.init (g : Network) : ACORouter :=
  ⟨none, none, initPheromones g⟩

/-- `ACORouter.train(src, dst, demand_bw)`: clears `best_path`/`best_cost`,
keeps the incoming pheromone table (the `_initialize_pheromones()` call at
the top of `train` is commented out in the source), then runs the iterations. -/
def ACORouter.train (cfg : ACOCfg) (cm : CostModel) (g : Network) (src dst : ℕ)
    (demand : ℚ) (O : ℕ → ℕ → ℕ → ℕ) (r : ACORouter) : ACORouter :=
  let pb := acoIterGo cfg cm g src dst demand O cfg.iterations 0 r.pheromones ⟨none, none⟩
  ⟨pb.2.best_path, pb.2.best_cost, pb.1⟩

/-- `ACORouter.get_best_path(src, dst)`. -/
def ACORouter.get_best_path (r : ACORouter) : Option (List ℕ) :=
  r.best_path

/-- The PathMetrics dict returned by `ACORouter.get_path_metrics`. -/
inductive ACOMetrics where
  | invalid (error : String)
  | ok (path : List ℕ) (total_delay total_reliability resource_cost total_cost : ℚ)
       (bottleneck_bw : Option ℚ) (hop_count : ℕ)
deriving DecidableEq

/-- The `valid` field of the ACO metrics dict. -/
def ACOMetrics.is_valid : ACOMetrics → Bool
  | .invalid _ => false
  | .ok _ _ _ _ _ _ _ => true

/-- `ACORouter.get_path_metrics(path, demand_bw)`: rejects `None`/short
paths, computes the bottleneck with bandwidth default 0, rejects a
bottleneck below the demand, otherwise reports the recomputed metrics. -/
def ACORouter.get_path_metrics (cm : CostModel) (g : Network)
    (path : Option (List ℕ)) (demand : ℚ) : ACOMetrics :=
  match path with
  | none => .invalid "Yol bulunamadı"
  | some p =>
    if p.length < 2 then .invalid "Yol bulunamadı"
    else
      let minbw := bottleneck0 g p
      if ltOpt minbw demand then .invalid "Bant genişliği yetersiz"
      else
        let attrs := cm.attrs p
        let cost := cm.wcost attrs
        let trel1 := (pairs p).foldl (fun acc uv => acc * relD g uv.1 uv.2) 1
        let trel := p.foldl (fun acc n => acc * nodeRelD g n) trel1
        .ok p attrs.total_delay trel attrs.resource_cost cost minbw (p.length - 1)

/-!  Correctness predicates. -/

/-- The pair `(u, v)` is an edge of the network. -/
def EdgeOK (g : Network) (u v : ℕ) : Prop :=
  (g.edge? u v).isSome = true

/-- Every consecutive pair of the path is an edge of the network. -/
def AdjPath (g : Network) (p : List ℕ) : Prop :=
  ∀ uv ∈ pairs p, EdgeOK g uv.1 uv.2

/-- A path the routers may report: bandwidth-feasible for the demand (as the
training loops measure it, bandwidth default 0), simple, and edge-connected. -/
def GoodPath (g : Network) (demand : ℚ) (p : List ℕ) : Prop :=
  demandOk (bottleneck0 g p) demand = true ∧ p.Nodup ∧ AdjPath g p

/-- Any retained best path is a `GoodPath`. -/
def GoodBest (g : Network) (demand : ℚ) (b : BestState) : Prop :=
  ∀ p, b.best_path = some p → GoodPath g demand p

/-- Every action key of every Q-table row is a graph edge from its state. -/
def QKeys (g : Network) (Q : QTable) : Prop :=
  ∀ s a, a ∈ (qrow Q s).map Prod.fst → EdgeOK g s a

/-!  Concrete fixtures used by witnesses and counterexamples. -/

/-- A concrete instance of the abstract cost model: every path costs 1
(delay attribute 1, zero reliability and resource attributes). -/
def cmConst : CostModel :=
  ⟨fun _ => ⟨1, 0, 0⟩, fun a => a.total_delay⟩

/-- An edge with delay 1, reliability 1, bandwidth 10. -/
def eW : EdgeData := ⟨some 1, some 1, some 10⟩

/-- Nodes 0, 1, 2 with the single edge 0-1; node 2 is isolated. -/
def gW : Network := ⟨[(0, none), (1, none), (2, none)], [(0, 1, eW)]⟩

/-- The path graph 0-1-2. -/
def gP : Network := ⟨[(0, none), (1, none), (2, none)], [(0, 1, eW), (1, 2, eW)]⟩

/-- Nodes 0, 1 with one edge 0-1 carrying no `bandwidth` attribute. -/
def gM : Network := ⟨[(0, none), (1, none)], [(0, 1, ⟨some 1, some 1, none⟩)]⟩

/-- Q-learning hyperparameters: defaults of the source, but 1 episode and a
step budget of 5. -/
def cfgW : QCfg := ⟨15/100, 92/100, 1, 1/100, 99/100, 1, 5, -2, 1/2⟩

/-- Q-learning hyperparameters with `initial_epsilon = 1/2` and 0 episodes. -/
def cfgE : QCfg := ⟨15/100, 92/100, 1/2, 1/100, 99/100, 0, 5, -2, 1/2⟩

/-- ACO hyperparameters: 1 ant, 1 iteration, source defaults otherwise. -/
def aCfgW : ACOCfg := ⟨1, 1, 1, 2, 1/2, 100⟩

/-- Oracle that always explores and picks the first candidate. -/
def oEx : ℕ → Choice := fun _ => ⟨true, 0⟩

/-- Per-episode oracle that always explores and picks the first candidate. -/
def OEx : ℕ → ℕ → Choice := fun _ _ => ⟨true, 0⟩

/-- Per-run oracle that always explores and picks the first candidate. -/
def OEx3 : ℕ → ℕ → ℕ → Choice := fun _ _ _ => ⟨true, 0⟩

/-- Ant oracle that always picks the first valid neighbor. -/
def oZ : ℕ → ℕ := fun _ => 0

/-- Per-ant oracle that always picks the first valid neighbor. -/
def OZ2 : ℕ → ℕ → ℕ := fun _ _ => 0

/-- Per-iteration oracle that always picks the first valid neighbor. -/
def OZ3 : ℕ → ℕ → ℕ → ℕ := fun _ _ _ => 0

/-!  Helper lemmas: paths and bottlenecks. -/

/-- Appending a node extends the traversed pairs by the final edge. -/
theorem pairs_append : ∀ (p : List ℕ) (x a : ℕ), p.getLast? = some x →
    pairs (p ++ [a]) = pairs p ++ [(x, a)]
  | [], x, a, h => by simp at h
  | [u], x, a, h => by
    simp only [List.getLast?_singleton, Option.some.injEq] at h
    subst h
    rfl
  | u :: v :: t, x, a, h => by
    have h' : (v :: t).getLast? = some x := by
      rw [List.getLast?_cons_cons] at h
      exact h
    have ih := pairs_append (v :: t) x a h'
    rw [List.cons_append] at ih
    show pairs ((u :: v :: t) ++ [a]) = ((u, v) :: pairs (v :: t)) ++ [(x, a)]
    rw [List.cons_append, List.cons_append]
    show (u, v) :: pairs (v :: (t ++ [a])) = (u, v) :: (pairs (v :: t) ++ [(x, a)])
    rw [ih]

/-- Each component of a traversed pair is a node of the path. -/
theorem pairs_mem_left : ∀ (p : List ℕ) (uv : ℕ × ℕ), uv ∈ pairs p → uv.1 ∈ p ∧ uv.2 ∈ p
  | [], uv, h => by simp [pairs] at h
  | [u], uv, h => by simp [pairs] at h
  | u :: v :: t, uv, h => by
    rcases (List.mem_cons).1 h with h1 | h2
    · subst h1
      exact ⟨List.mem_cons_self _ _, List.mem_cons_of_mem _ (List.mem_cons_self _ _)⟩
    · have := pairs_mem_left (v :: t) uv h2
      exact ⟨List.mem_cons_of_mem _ this.1, List.mem_cons_of_mem _ this.2⟩

/-- Bottleneck of an extended path: minimum with the final edge's bandwidth. -/
theorem bottleneck0_append (g : Network) (p : List ℕ) (x a : ℕ) (h : p.getLast? = some x) :
    bottleneck0 g (p ++ [a]) = minO (bottleneck0 g p) (some (bw0 g x a)) := by
  unfold bottleneck0
  rw [pairs_append p x a h]
  simp [List.foldl_append]

/-- Feasibility of a minimum splits into both sides. -/
theorem demandOk_minO (m : Option ℚ) (b d : ℚ) :
    demandOk (minO m (some b)) d = (demandOk m d && decide (d ≤ b)) := by
  cases m with
  | none => simp [minO, demandOk]
  | some a =>
    simp only [minO, demandOk, Bool.decide_and, decide_eq_true_iff]
    by_cases h1 : d ≤ a <;> by_cases h2 : d ≤ b <;>
      simp [le_min_iff, h1, h2]

/-- A neighbor of `u` is connected to `u` by an edge. -/
theorem mem_neighbors_edge (g : Network) (u v : ℕ) (h : v ∈ g.neighbors u) :
    EdgeOK g u v := by
  rcases List.mem_filterMap.1 h with ⟨e, he, hf⟩
  have hd : (e.1 = u ∧ e.2.1 = v) ∨ (e.1 = v ∧ e.2.1 = u) := by
    by_cases h1 : e.1 = u
    · rw [if_pos h1, Option.some.injEq] at hf
      exact Or.inl ⟨h1, hf⟩
    · rw [if_neg h1] at hf
      by_cases h2 : e.2.1 = u
      · rw [if_pos h2, Option.some.injEq] at hf
        exact Or.inr ⟨hf, h2⟩
      · rw [if_neg h2] at hf
        exact absurd hf (by simp)
  unfold EdgeOK Network.edge?
  have hs : (g.edges.find?
      (fun e => decide ((e.1 = u ∧ e.2.1 = v) ∨ (e.1 = v ∧ e.2.1 = u)))).isSome := by
    rw [List.find?_isSome]
    exact ⟨e, he, decide_eq_true hd⟩
  rcases Option.isSome_iff_exists.1 hs with ⟨w, hw⟩
  rw [hw]
  rfl

/-- An element picked by modular index from a non-empty list is in the list. -/
theorem getD_mod_mem (l : List ℕ) (i d : ℕ) (h : l ≠ []) : l.getD (i % l.length) d ∈ l := by
  have hlen : 0 < l.length := List.length_pos.2 h
  have hlt : i % l.length < l.length := Nat.mod_lt _ hlen
  have he : l.getD (i % l.length) d = l[i % l.length] := by
    simp [List.getD, List.get?_eq_getElem?, List.getElem?_eq_getElem hlt]
  rw [he]
  exact List.getElem_mem hlt

/-- `argmaxBy` returns the seed or a list element. -/
theorem argmaxBy_mem (f : ℕ → ℚ) : ∀ (l : List ℕ) (best : ℕ),
    argmaxBy f l best = best ∨ argmaxBy f l best ∈ l
  | [], _ => Or.inl rfl
  | a :: rest, best => by
    show argmaxBy f rest (if f best < f a then a else best) = best ∨
      argmaxBy f rest (if f best < f a then a else best) ∈ a :: rest
    by_cases hc : f best < f a
    · rw [if_pos hc]
      rcases argmaxBy_mem f rest a with h | h
      · rw [h]
        exact Or.inr (List.mem_cons_self _ _)
      · exact Or.inr (List.mem_cons_of_mem _ h)
    · rw [if_neg hc]
      rcases argmaxBy_mem f rest best with h | h
      · rw [h]
        exact Or.inl rfl
      · exact Or.inr (List.mem_cons_of_mem _ h)

/-- The epsilon-greedy choice is one of the candidate actions. -/
theorem qlChoose_mem (row : List (ℕ × ℚ)) (actions : List ℕ) (c : Choice)
    (h : actions ≠ []) : qlChoose row actions c ∈ actions := by
  match actions with
  | [] => exact absurd rfl h
  | a0 :: rest =>
    show (if c.explore then (a0 :: rest).getD (c.idx % (a0 :: rest).length) a0
      else argmaxBy (fun a => qval row a) rest a0) ∈ a0 :: rest
    by_cases hc : c.explore
    · rw [if_pos hc]
      exact getD_mod_mem _ _ _ h
    · rw [if_neg hc]
      rcases argmaxBy_mem (fun a => qval row a) rest a0 with h1 | h1
      · rw [h1]
        exact List.mem_cons_self _ _
      · exact List.mem_cons_of_mem _ h1

/-- Membership in the loop-free action list. -/
theorem qlActions_mem (Q : QTable) (state : ℕ) (visited : List ℕ) (a : ℕ)
    (h : a ∈ qlActions Q state visited) :
    a ∈ (qrow Q state).map Prod.fst ∧ a ∉ visited := by
  rcases List.mem_filter.1 h with ⟨h1, h2⟩
  exact ⟨h1, of_decide_eq_true h2⟩

/-!  Helper lemmas: the Q-table. -/

/-- Row lookup on a cons cell. -/
theorem qrow_cons (e : ℕ × List (ℕ × ℚ)) (Q : QTable) (t : ℕ) :
    qrow (e :: Q) t = if e.1 = t then e.2 else qrow Q t := by
  unfold qrow
  by_cases h : e.1 = t
  · rw [List.find?_cons_of_pos _ (by simp [h]), if_pos h]
  · rw [List.find?_cons_of_neg _ (by simp [h]), if_neg h]

/-- Updating one value of a row keeps its keys. -/
theorem rowUpd_keys (row : List (ℕ × ℚ)) (a : ℕ) (v : ℚ) :
    (row.map (fun f => if f.1 = a then (f.1, v) else f)).map Prod.fst = row.map Prod.fst := by
  induction row with
  | nil => rfl
  | cons f rest ih =>
    simp only [List.map_cons, ih]
    by_cases hf : f.1 = a
    · rw [if_pos hf]
    · rw [if_neg hf]

/-- `setQ` changes only the addressed row, by the row update map. -/
theorem qrow_setQ (Q : QTable) (s a : ℕ) (v : ℚ) (t : ℕ) :
    qrow (setQ Q s a v) t =
      if t = s then (qrow Q t).map (fun f => if f.1 = a then (f.1, v) else f)
      else qrow Q t := by
  induction Q with
  | nil =>
    by_cases h : t = s <;> simp [setQ, qrow, h]
  | cons e Q ih =>
    have hm : setQ (e :: Q) s a v =
        (if e.1 = s then (e.1, e.2.map (fun f => if f.1 = a then (f.1, v) else f)) else e)
          :: setQ Q s a v := rfl
    rw [hm, qrow_cons, qrow_cons]
    by_cases hes : e.1 = s
    · by_cases het : e.1 = t
      · have hts : t = s := by rw [← het, hes]
        simp [hes, het, hts]
      · have hts : ¬ t = s := fun hc => het (by rw [hes, ← hc])
        have hst : ¬ s = t := fun hc => hts hc.symm
        simp [hes, het, hts, hst, ih]
    · by_cases het : e.1 = t
      · have hts : ¬ t = s := fun hc => hes (by rw [het, hc])
        simp [hes, het, hts]
      · simp [hes, het, ih]

/-- `setQ` preserves all row key sets. -/
theorem qrow_setQ_keys (Q : QTable) (s a : ℕ) (v : ℚ) (t : ℕ) :
    (qrow (setQ Q s a v) t).map Prod.fst = (qrow Q t).map Prod.fst := by
  rw [qrow_setQ]
  by_cases h : t = s
  · rw [if_pos h, rowUpd_keys]
  · rw [if_neg h]

/-- `setQ` preserves the edge-soundness of the Q-table keys. -/
theorem QKeys_setQ (g : Network) (Q : QTable) (s a : ℕ) (v : ℚ) (h : QKeys g Q) :
    QKeys g (setQ Q s a v) := by
  intro t b hb
  rw [qrow_setQ_keys] at hb
  exact h t b hb

/-- Reading the value just written. -/
theorem qval_rowUpd (row : List (ℕ × ℚ)) (a : ℕ) (v : ℚ)
    (h : a ∈ row.map Prod.fst) :
    qval (row.map (fun f => if f.1 = a then (f.1, v) else f)) a = v := by
  induction row with
  | nil => simp at h
  | cons f rest ih =>
    by_cases hf : f.1 = a
    · unfold qval
      rw [List.map_cons, if_pos hf, List.find?_cons_of_pos _ (by simp [hf])]
    · unfold qval
      rw [List.map_cons, if_neg hf, List.find?_cons_of_neg _ (by simp [hf])]
      have h' : a ∈ rest.map Prod.fst := by
        rcases List.mem_cons.1 h with h1 | h1
        · exact absurd h1.symm hf
        · exact h1
      exact ih h'

/-- The rows of the initial Q-table: the node's neighbors, all zero. -/
theorem qrow_initQ (g : Network) (s : ℕ) :
    qrow (initQ g) s = (g.neighbors s).map (fun v => (v, (0 : ℚ))) ∨
    qrow (initQ g) s = [] := by
  unfold initQ
  generalize g.nodes = L
  induction L with
  | nil => exact Or.inr rfl
  | cons n L ih =>
    rw [List.map_cons, qrow_cons]
    by_cases hn : n.1 = s
    · left
      rw [if_pos hn, hn]
    · rw [if_neg hn]
      exact ih

/-- The initial Q-table's keys are edges. -/
theorem QKeys_initQ (g : Network) : QKeys g (initQ g) := by
  intro s a ha
  rcases qrow_initQ g s with h | h
  · rw [h, List.map_map] at ha
    have : a ∈ g.neighbors s := by
      simpa using ha
    exact mem_neighbors_edge g s a this
  · rw [h] at ha
    simp at ha

/-- All values of the initial Q-table are zero. -/
theorem qval_initQ (g : Network) (s a : ℕ) : qval (qrow (initQ g) s) a = 0 := by
  rcases qrow_initQ g s with h | h
  · rw [h]
    unfold qval
    generalize g.neighbors s = L
    induction L with
    | nil => rfl
    | cons n L ih =>
      by_cases hn : n = a
      · rw [List.map_cons, List.find?_cons_of_pos _ (by simp [hn])]
      · rw [List.map_cons, List.find?_cons_of_neg _ (by simp [hn])]
        exact ih
  · rw [h]
    rfl

/-!  Helper lemmas: the Q-learning training loop invariant. -/

/-- The per-step best-state update only records a feasible, simple, adjacent
episode path. -/
theorem qlBestUpd_good (cfg : QCfg) (cm : CostModel) (g : Network) (demand : ℚ)
    (dst action : ℕ) (path' : List ℕ) (minbw' : Option ℚ) (b : BestState)
    (hb : GoodBest g demand b) (hfeas : bottleneck0 g path' = minbw')
    (hnd : path'.Nodup) (hadj : AdjPath g path') :
    GoodBest g demand (qlBestUpd cfg cm demand dst action path' minbw' b).2 := by
  unfold qlBestUpd
  by_cases h1 : action = dst
  · rw [if_pos h1]
    by_cases h2 : demandOk minbw' demand
    · rw [if_pos h2]
      by_cases h3 : ltInf (max (cm.cost path') (1 / 1000000)) b.best_cost
      · rw [if_pos h3]
        intro p hp
        have hpp : p = path' := by
          simpa using hp.symm
        subst hpp
        exact ⟨by rw [hfeas]; exact h2, hnd, hadj⟩
      · rw [if_neg h3]
        exact hb
    · rw [if_neg h2]
      exact hb
  · rw [if_neg h1]
    exact hb

/-- Invariant of the episode loop: from a sound Q-table and loop state, the
loop returns a sound best state and Q-table. -/
theorem qlLoop_invariant (cfg : QCfg) (cm : CostModel) (g : Network) (dst : ℕ)
    (demand : ℚ) (o : ℕ → Choice) :
    ∀ (fuel k state : ℕ) (visited path : List ℕ) (minbw : Option ℚ)
      (Q : QTable) (b : BestState),
    QKeys g Q →
    path.getLast? = some state →
    path.Nodup →
    AdjPath g path →
    (∀ x, x ∈ path ↔ x ∈ visited) →
    bottleneck0 g path = minbw →
    GoodBest g demand b →
    GoodBest g demand (qlLoop cfg cm g dst demand o fuel k state visited path minbw Q b).2 ∧
    QKeys g (qlLoop cfg cm g dst demand o fuel k state visited path minbw Q b).1
  | 0, k, state, visited, path, minbw, Q, b => by
    intro hQ _ _ _ _ _ hb
    exact ⟨hb, hQ⟩
  | fuel + 1, k, state, visited, path, minbw, Q, b => by
    intro hQ hlast hnd hadj hvis hbot hb
    simp only [qlLoop]
    by_cases hsd : state = dst
    · rw [if_pos hsd]
      exact ⟨hb, hQ⟩
    · rw [if_neg hsd]
      by_cases hae : qlActions Q state visited = []
      · rw [if_pos hae]
        exact ⟨hb, hQ⟩
      · rw [if_neg hae]
        have hmem : qlChoose (qrow Q state) (qlActions Q state visited) (o k) ∈
            qlActions Q state visited := qlChoose_mem _ _ _ hae
        rcases qlActions_mem _ _ _ _ hmem with ⟨hkey, hnvis⟩
        have hedge : EdgeOK g state (qlChoose (qrow Q state) (qlActions Q state visited) (o k)) :=
          hQ state _ hkey
        have hnp : qlChoose (qrow Q state) (qlActions Q state visited) (o k) ∉ path :=
          fun hc => hnvis ((hvis _).1 hc)
        have hlast' := List.getLast?_concat
          (a := qlChoose (qrow Q state) (qlActions Q state visited) (o k)) path
        have hnd' : (path ++ [qlChoose (qrow Q state) (qlActions Q state visited) (o k)]).Nodup := by
          rw [List.nodup_append]
          refine ⟨hnd, List.nodup_singleton _, ?_⟩
          intro x hx hx'
          rw [List.mem_singleton] at hx'
          subst hx'
          exact hnp hx
        have hadj' : AdjPath g (path ++ [qlChoose (qrow Q state) (qlActions Q state visited) (o k)]) := by
          intro uv huv
          rw [pairs_append path state _ hlast] at huv
          rcases List.mem_append.1 huv with h1 | h1
          · exact hadj uv h1
          · rw [List.mem_singleton] at h1
            subst h1
            exact hedge
        have hvis' : ∀ x, x ∈ path ++ [qlChoose (qrow Q state) (qlActions Q state visited) (o k)] ↔
            x ∈ visited ++ [qlChoose (qrow Q state) (qlActions Q state visited) (o k)] := by
          intro x
          rw [List.mem_append, List.mem_append, hvis x]
        have hbot' : bottleneck0 g (path ++ [qlChoose (qrow Q state) (qlActions Q state visited) (o k)]) =
            minO minbw (some (bw0 g state (qlChoose (qrow Q state) (qlActions Q state visited) (o k)))) := by
          rw [bottleneck0_append g path state _ hlast, hbot]
        have hb' := qlBestUpd_good cfg cm g demand dst
          (qlChoose (qrow Q state) (qlActions Q state visited) (o k))
          (path ++ [qlChoose (qrow Q state) (qlActions Q state visited) (o k)])
          (minO minbw (some (bw0 g state (qlChoose (qrow Q state) (qlActions Q state visited) (o k)))))
          b hb hbot' hnd' hadj'
        have hQ' := QKeys_setQ g Q state
          (qlChoose (qrow Q state) (qlActions Q state visited) (o k))
          (qval (qrow Q state) (qlChoose (qrow Q state) (qlActions Q state visited) (o k)) +
            cfg.alpha * ((qlBestUpd cfg cm demand dst
              (qlChoose (qrow Q state) (qlActions Q state visited) (o k))
              (path ++ [qlChoose (qrow Q state) (qlActions Q state visited) (o k)])
              (minO minbw (some (bw0 g state (qlChoose (qrow Q state) (qlActions Q state visited) (o k)))))
              b).1 +
              cfg.gamma * maxQrow (qrow Q (qlChoose (qrow Q state) (qlActions Q state visited) (o k))) -
              qval (qrow Q state) (qlChoose (qrow Q state) (qlActions Q state visited) (o k))))
          hQ
        exact qlLoop_invariant cfg cm g dst demand o fuel (k + 1) _ _ _ _ _ _
          hQ' hlast' hnd' hadj' hvis' hbot' hb'

/-- One training episode preserves soundness of the Q-table and best state. -/
theorem qlEpisode_invariant (cfg : QCfg) (cm : CostModel) (g : Network) (src dst : ℕ)
    (demand : ℚ) (o : ℕ → Choice) (Q : QTable) (b : BestState)
    (hQ : QKeys g Q) (hb : GoodBest g demand b) :
    GoodBest g demand (qlEpisode cfg cm g src dst demand o Q b).2 ∧
    QKeys g (qlEpisode cfg cm g src dst demand o Q b).1 := by
  unfold qlEpisode
  refine qlLoop_invariant cfg cm g dst demand o cfg.max_steps 0 src [src] [src] none Q b
    hQ rfl (List.nodup_singleton _) ?_ (fun x => Iff.rfl) rfl hb
  intro uv h
  simp [pairs] at h

/-- The episode loop of `train` preserves soundness. -/
theorem qlTrainGo_invariant (cfg : QCfg) (cm : CostModel) (g : Network) (src dst : ℕ)
    (demand : ℚ) (O : ℕ → ℕ → Choice) :
    ∀ (n : ℕ) (r : QLearningRouter), QKeys g r.Q →
    GoodBest g demand ⟨r.best_path, r.best_cost⟩ →
    GoodBest g demand ⟨(qlTrainGo cfg cm g src dst demand O n r).best_path,
      (qlTrainGo cfg cm g src dst demand O n r).best_cost⟩ ∧
    QKeys g (qlTrainGo cfg cm g src dst demand O n r).Q
  | 0, r => fun hQ hb => ⟨hb, hQ⟩
  | n + 1, r => fun hQ hb => by
    simp only [qlTrainGo]
    have hep := qlEpisode_invariant cfg cm g src dst demand (O n) r.Q
      ⟨r.best_path, r.best_cost⟩ hQ hb
    exact qlTrainGo_invariant cfg cm g src dst demand O n _ hep.2 hep.1

/-- `train` preserves soundness of the router state. -/
theorem ql_train_invariant (cfg : QCfg) (cm : CostModel) (g : Network) (src dst : ℕ)
    (demand : ℚ) (O : ℕ → ℕ → Choice) (r : QLearningRouter) (hQ : QKeys g r.Q)
    (hb : GoodBest g demand ⟨r.best_path, r.best_cost⟩) :
    GoodBest g demand ⟨(QLearningRouter.train cfg cm g src dst demand O r).best_path,
      (QLearningRouter.train cfg cm g src dst demand O r).best_cost⟩ ∧
    QKeys g (QLearningRouter.train cfg cm g src dst demand O r).Q :=
  qlTrainGo_invariant cfg cm g src dst demand O cfg.episodes r hQ hb

/-!  Helper lemmas: the ant-colony construction invariant. -/

/-- A successful ant walk yields a feasible, simple, adjacent path ending at
the destination. -/
theorem acoConstructGo_invariant (g : Network) (dst : ℕ) (demand : ℚ) (o : ℕ → ℕ) :
    ∀ (fuel k current : ℕ) (path visited : List ℕ),
    path.getLast? = some current →
    path.Nodup →
    AdjPath g path →
    (∀ x, x ∈ path ↔ x ∈ visited) →
    demandOk (bottleneck0 g path) demand = true →
    ∀ p, acoConstructGo g dst demand o fuel k current path visited = some p →
    GoodPath g demand p ∧ p.getLast? = some dst
  | 0, k, current, path, visited => by
    intro _ _ _ _ _ p hp
    exact absurd hp (by simp [acoConstructGo])
  | fuel + 1, k, current, path, visited => by
    intro hlast hnd hadj hvis hfeas p hp
    simp only [acoConstructGo] at hp
    by_cases hcd : current = dst
    · rw [if_pos hcd] at hp
      rw [Option.some.injEq] at hp
      subst hp
      rw [hcd] at hlast
      exact ⟨⟨hfeas, hnd, hadj⟩, hlast⟩
    · rw [if_neg hcd] at hp
      rcases hval : (g.neighbors current).filter
          (fun n => decide (n ∉ visited) && demandOk (some (bw0 g current n)) demand) with _ | ⟨v0, vrest⟩
      · rw [hval] at hp
        exact absurd hp (by simp)
      · rw [hval] at hp
        have hmem : (v0 :: vrest).getD (o k % (v0 :: vrest).length) v0 ∈ v0 :: vrest :=
          getD_mod_mem _ _ _ (by simp)
        rw [← hval] at hmem
        rcases List.mem_filter.1 hmem with ⟨hnb, hcond⟩
        rw [Bool.and_eq_true] at hcond
        have hnvis : (v0 :: vrest).getD (o k % (v0 :: vrest).length) v0 ∉ visited := by
          have := hcond.1
          rw [hval] at this
          exact of_decide_eq_true this
        have hbw : demandOk (some (bw0 g current ((v0 :: vrest).getD (o k % (v0 :: vrest).length) v0)))
            demand = true := by
          have := hcond.2
          rw [hval] at this
          exact this
        have hedge : EdgeOK g current ((v0 :: vrest).getD (o k % (v0 :: vrest).length) v0) := by
          apply mem_neighbors_edge
          rw [hval] at hnb
          exact hnb
        have hnp : (v0 :: vrest).getD (o k % (v0 :: vrest).length) v0 ∉ path :=
          fun hc => hnvis ((hvis _).1 hc)
        refine acoConstructGo_invariant g dst demand o fuel (k + 1) _ _ _
          (List.getLast?_concat path) ?_ ?_ ?_ ?_ p hp
        · rw [List.nodup_append]
          refine ⟨hnd, List.nodup_singleton _, ?_⟩
          intro x hx hx'
          rw [List.mem_singleton] at hx'
          subst hx'
          exact hnp hx
        · intro uv huv
          rw [pairs_append path current _ hlast] at huv
          rcases List.mem_append.1 huv with h1 | h1
          · exact hadj uv h1
          · rw [List.mem_singleton] at h1
            subst h1
            exact hedge
        · intro x
          rw [List.mem_append, List.mem_append, hvis x]
        · rw [bottleneck0_append g path current _ hlast, demandOk_minO, hfeas]
          simpa [demandOk] using hbw

/-- A successful `_construct_path` yields a feasible, simple, adjacent path. -/
theorem acoConstruct_invariant (g : Network) (src dst : ℕ) (demand : ℚ) (o : ℕ → ℕ)
    (p : List ℕ) (hp : acoConstruct g src dst demand o = some p) :
    GoodPath g demand p ∧ p.getLast? = some dst := by
  refine acoConstructGo_invariant g dst demand o (2 * g.nodes.length) 0 src [src] [src]
    rfl (List.nodup_singleton _) ?_ (fun x => Iff.rfl) rfl p hp
  intro uv h
  simp [pairs] at h

/-- The ant loop only records feasible, simple, adjacent paths as best. -/
theorem acoAnts_invariant (cm : CostModel) (g : Network) (src dst : ℕ) (demand : ℚ)
    (o : ℕ → ℕ → ℕ) :
    ∀ (n i : ℕ) (acc : List (List ℕ × ℚ)) (b : BestState), GoodBest g demand b →
    GoodBest g demand (acoAnts cm g src dst demand o n i acc b).2
  | 0, i, acc, b => fun hb => hb
  | n + 1, i, acc, b => fun hb => by
    rcases hc : acoConstruct g src dst demand (o i) with _ | p
    · simp only [acoAnts, hc]
      exact acoAnts_invariant cm g src dst demand o n (i + 1) acc b hb
    · simp only [acoAnts, hc]
      refine acoAnts_invariant cm g src dst demand o n (i + 1) _ _ ?_
      by_cases hlt : ltInf (cm.cost p) b.best_cost
      · rw [if_pos hlt]
        intro p' hp'
        have hpp : p' = p := by simpa using hp'.symm
        subst hpp
        exact (acoConstruct_invariant g src dst demand (o i) p' hc).1
      · rw [if_neg hlt]
        exact hb

/-- The iteration loop only records feasible, simple, adjacent paths as best. -/
theorem acoIterGo_invariant (cfg : ACOCfg) (cm : CostModel) (g : Network) (src dst : ℕ)
    (demand : ℚ) (O : ℕ → ℕ → ℕ → ℕ) :
    ∀ (n it : ℕ) (ph : Pheromones) (b : BestState), GoodBest g demand b →
    GoodBest g demand (acoIterGo cfg cm g src dst demand O n it ph b).2
  | 0, it, ph, b => fun hb => hb
  | n + 1, it, ph, b => fun hb => by
    simp only [acoIterGo]
    exact acoIterGo_invariant cfg cm g src dst demand O n (it + 1) _ _
      (acoAnts_invariant cm g src dst demand (O it) cfg.ant_count 0 [] b hb)

/-- Any best path of a trained ACO router (from any incoming state) is a
feasible, simple, adjacent path. -/
theorem aco_train_good (cfg : ACOCfg) (cm : CostModel) (g : Network) (src dst : ℕ)
    (demand : ℚ) (O : ℕ → ℕ → ℕ → ℕ) (r : ACORouter) (p : List ℕ)
    (hp : (ACORouter.train cfg cm g src dst demand O r).best_path = some p) :
    GoodPath g demand p := by
  unfold ACORouter.train at hp
  refine acoIterGo_invariant cfg cm g src dst demand O cfg.iterations 0 r.pheromones
    ⟨none, none⟩ ?_ p hp
  intro q hq
  exact absurd hq (by simp)

/-!  Claim theorems. -/

/-- Claim C1: after `train(src, dst, demand_bw)`, `get_best_path` never
returns an infeasible path: for a freshly constructed `QLearningRouter` and
for `ACORouter` (from any state, since its `train` clears the best path),
every returned non-`None` path has bottleneck bandwidth at least `demand_bw`;
infeasible candidate paths are filtered out before the cost comparison, and
when no feasible path was found the retained result stays `None`. -/
theorem claim_C1_feasible_best :
    (∀ (cfg : QCfg) (cm : CostModel) (g : Network) (src dst : ℕ) (demand : ℚ)
      (O : ℕ → ℕ → Choice) (p : List ℕ),
      (QLearningRouter.train cfg cm g src dst demand O
        (QLearningRouter.init cfg g)).get_best_path = some p →
      demandOk (bottleneck0 g p) demand = true) ∧
    (∀ (cfg : ACOCfg) (cm : CostModel) (g : Network) (src dst : ℕ) (demand : ℚ)
      (O : ℕ → ℕ → ℕ → ℕ) (r : ACORouter) (p : List ℕ),
      (ACORouter.train cfg cm g src dst demand O r).get_best_path = some p →
      demandOk (bottleneck0 g p) demand = true) := by
  constructor
  · intro cfg cm g src dst demand O p hp
    have hinv := ql_train_invariant cfg cm g src dst demand O
      (QLearningRouter.init cfg g) (QKeys_initQ g)
      (fun q hq => by simp [QLearningRouter.init] at hq)
    exact (hinv.1 p hp).1
  · intro cfg cm g src dst demand O r p hp
    exact (aco_train_good cfg cm g src dst demand O r p hp).1

/-- Witness for C1 at a concrete instance: both routers return the edge path
`[0, 1]` on the one-edge graph, and it satisfies the zero demand. -/
theorem claim_C1_feasible_best_w :
    demandOk (bottleneck0 gW [0, 1]) 0 = true ∧
    demandOk (bottleneck0 gW [0, 1]) 0 = true :=
  ⟨claim_C1_feasible_best.1 cfgW cmConst gW 0 1 0 OEx [0, 1] (by decide),
   claim_C1_feasible_best.2 aCfgW cmConst gW 0 1 0 OZ3 (ACORouter.init gW) [0, 1] (by decide)⟩

/-- Claim C4: every non-`None` path returned by `get_best_path` after
training (fresh `QLearningRouter`; `ACORouter` from any state) is simple —
no repeated node — and every consecutive pair of its nodes is an edge of the
network. -/
theorem claim_C4_simple_adjacent :
    (∀ (cfg : QCfg) (cm : CostModel) (g : Network) (src dst : ℕ) (demand : ℚ)
      (O : ℕ → ℕ → Choice) (p : List ℕ),
      (QLearningRouter.train cfg cm g src dst demand O
        (QLearningRouter.init cfg g)).get_best_path = some p →
      p.Nodup ∧ AdjPath g p) ∧
    (∀ (cfg : ACOCfg) (cm : CostModel) (g : Network) (src dst : ℕ) (demand : ℚ)
      (O : ℕ → ℕ → ℕ → ℕ) (r : ACORouter) (p : List ℕ),
      (ACORouter.train cfg cm g src dst demand O r).get_best_path = some p →
      p.Nodup ∧ AdjPath g p) := by
  constructor
  · intro cfg cm g src dst demand O p hp
    have hinv := ql_train_invariant cfg cm g src dst demand O
      (QLearningRouter.init cfg g) (QKeys_initQ g)
      (fun q hq => by simp [QLearningRouter.init] at hq)
    exact (hinv.1 p hp).2
  · intro cfg cm g src dst demand O r p hp
    exact (aco_train_good cfg cm g src dst demand O r p hp).2

/-- Witness for C4 at a concrete instance: the returned path `[0, 1]` is
simple and edge-connected. -/
theorem claim_C4_simple_adjacent_w :
    ([0, 1] : List ℕ).Nodup ∧ AdjPath gW [0, 1] :=
  claim_C4_simple_adjacent.2 aCfgW cmConst gW 0 1 0 OZ3 (ACORouter.init gW) [0, 1] (by decide)

/-- Claim C9: when an edge carries no `bandwidth` attribute,
`QLearningRouter.get_path_metrics` reads it as `float("inf")` while
`ACORouter.get_path_metrics` reads it as 0; consequently, on the graph whose
only edge 0-1 lacks the attribute, the same path `[0, 1]` with demand 5 is
judged valid by the Q-learning router and invalid (bandwidth error) by the
ACO router. -/
theorem claim_C9_default_divergence :
    bwInf gM 0 1 = none ∧
    bw0 gM 0 1 = 0 ∧
    (QLearningRouter.get_path_metrics cmConst gM (some [0, 1]) 5).is_valid = true ∧
    ACORouter.get_path_metrics cmConst gM (some [0, 1]) 5 =
      ACOMetrics.invalid "Bant genişliği yetersiz" := by
  refine ⟨by decide, by decide, by decide, by decide⟩

/-- Claim C10: `QLearningRouter.train` does not clear the retained best path:
on the concrete instance, training `0 → 1` and then training `2 → 0` (node 2
is isolated, so the second training records nothing) leaves
`get_best_path` returning the `[0, 1]` path of the first demand. In
contrast, `ACORouter.train` resets `best_path`/`best_cost` on entry, so its
outcome depends only on the incoming pheromone table. -/
theorem claim_C10_best_path_retention :
    ((QLearningRouter.train cfgW cmConst gW 2 0 0 OEx
        (QLearningRouter.train cfgW cmConst gW 0 1 0 OEx
          (QLearningRouter.init cfgW gW))).get_best_path = some [0, 1]) ∧
    (∀ (cfg : ACOCfg) (cm : CostModel) (g : Network) (src dst : ℕ) (demand : ℚ)
      (O : ℕ → ℕ → ℕ → ℕ) (r r' : ACORouter), r.pheromones = r'.pheromones →
      ACORouter.train cfg cm g src dst demand O r =
      ACORouter.train cfg cm g src dst demand O r') := by
  constructor
  · decide
  · intro cfg cm g src dst demand O r r' h
    unfold ACORouter.train
    rw [h]

/-- Witness for C10: two ACO routers sharing a pheromone table but holding
different best paths train to identical results. -/
theorem claim_C10_best_path_retention_w :
    ACORouter.train aCfgW cmConst gW 0 1 0 OZ3
      ⟨some [5], some 3, initPheromones gW⟩ =
    ACORouter.train aCfgW cmConst gW 0 1 0 OZ3 (ACORouter.init gW) :=
  claim_C10_best_path_retention.2 aCfgW cmConst gW 0 1 0 OZ3
    ⟨some [5], some 3, initPheromones gW⟩ (ACORouter.init gW) rfl

/-!  Helper lemmas: path metrics. -/

/-- Feasibility is the negation of the code's rejection test. -/
theorem demandOk_not_ltOpt (m : Option ℚ) (d : ℚ) : demandOk m d = !ltOpt m d := by
  cases m with
  | none => rfl
  | some a =>
    simp only [demandOk, ltOpt]
    by_cases h : d ≤ a
    · simp [h, not_lt.2 h]
    · simp [h, lt_of_not_le h]

/-- A present bandwidth attribute is read identically under both defaults. -/
theorem bwInf_some_bw0 (g : Network) (u v : ℕ) (x : ℚ) (h : bwInf g u v = some x) :
    bw0 g u v = x := by
  unfold bwInf at h
  unfold bw0
  cases he : g.edge? u v with
  | none =>
    rw [he] at h
    simp at h
  | some ed =>
    rw [he] at h
    have h' : ed.bandwidth = some x := by
      simpa using h
    show ed.bandwidth.getD 0 = x
    simp [h']

/-- Congruence of the two bottleneck folds over edges with present
attributes. -/
theorem foldl_minO_congr (g : Network) :
    ∀ (L : List (ℕ × ℕ)) (acc : Option ℚ),
    (∀ uv ∈ L, (bwInf g uv.1 uv.2).isSome = true) →
    L.foldl (fun acc uv => minO acc (bwInf g uv.1 uv.2)) acc =
    L.foldl (fun acc uv => minO acc (some (bw0 g uv.1 uv.2))) acc
  | [], acc => fun _ => rfl
  | uv :: L, acc => fun h => by
    have h0 : (bwInf g uv.1 uv.2).isSome = true := h uv (List.mem_cons_self _ _)
    rcases Option.isSome_iff_exists.1 h0 with ⟨x, hx⟩
    have hbw : bw0 g uv.1 uv.2 = x := bwInf_some_bw0 g uv.1 uv.2 x hx
    show List.foldl _ (minO acc (bwInf g uv.1 uv.2)) L =
      List.foldl _ (minO acc (some (bw0 g uv.1 uv.2))) L
    rw [hx, hbw]
    exact foldl_minO_congr g L (minO acc (some x))
      (fun w hw => h w (List.mem_cons_of_mem _ hw))

/-- The two bottleneck readings agree when every traversed edge carries a
bandwidth attribute. -/
theorem bottleneckInf_eq_bottleneck0 (g : Network) (p : List ℕ)
    (h : ∀ uv ∈ pairs p, (bwInf g uv.1 uv.2).isSome = true) :
    bottleneckInf g p = bottleneck0 g p :=
  foldl_minO_congr g (pairs p) none h

/-- The Q-learning metrics of a long-enough path, by feasibility case. -/
theorem ql_metrics_cases (cm : CostModel) (g : Network) (p : List ℕ) (d : ℚ)
    (hlen : 2 ≤ p.length) :
    QLearningRouter.get_path_metrics cm g (some p) d =
      if ltOpt (bottleneckInf g p) d then
        QLMetrics.invalid "Bant genişliği kısıtı sağlanmadı"
      else
        QLMetrics.ok p (cm.attrs p).total_delay
          (p.foldl (fun acc n => acc * nodeRelD g n)
            ((pairs p).foldl (fun acc uv => acc * relD g uv.1 uv.2) 1))
          (cm.attrs p).reliability_cost (cm.attrs p).resource_cost
          (cm.wcost (cm.attrs p)) (bottleneckInf g p) (p.length - 1) p.length := by
  have h2 : ¬ p.length < 2 := by omega
  simp only [QLearningRouter.get_path_metrics, if_neg h2]

/-- The ACO metrics of a long-enough path, by feasibility case. -/
theorem aco_metrics_cases (cm : CostModel) (g : Network) (p : List ℕ) (d : ℚ)
    (hlen : 2 ≤ p.length) :
    ACORouter.get_path_metrics cm g (some p) d =
      if ltOpt (bottleneck0 g p) d then
        ACOMetrics.invalid "Bant genişliği yetersiz"
      else
        ACOMetrics.ok p (cm.attrs p).total_delay
          (p.foldl (fun acc n => acc * nodeRelD g n)
            ((pairs p).foldl (fun acc uv => acc * relD g uv.1 uv.2) 1))
          (cm.attrs p).resource_cost (cm.wcost (cm.attrs p))
          (bottleneck0 g p) (p.length - 1) := by
  have h2 : ¬ p.length < 2 := by omega
  simp only [ACORouter.get_path_metrics, if_neg h2]

/-- Claim C2: for every path with at least two nodes whose consecutive pairs
are edges carrying a bandwidth attribute, `get_path_metrics(path, demand_bw)`
of either router returns `valid = true` iff the bottleneck (the minimum edge
bandwidth read from the graph — identical under both routers' defaults) is at
least `demand_bw`, and when it is below the demand both return
`valid = false` with their bandwidth error message, independently of how the
path was produced. -/
theorem claim_C2_metrics_feasibility (cm : CostModel) (g : Network) (p : List ℕ)
    (d : ℚ) (hlen : 2 ≤ p.length)
    (hattr : ∀ uv ∈ pairs p, (bwInf g uv.1 uv.2).isSome = true) :
    bottleneckInf g p = bottleneck0 g p ∧
    ((QLearningRouter.get_path_metrics cm g (some p) d).is_valid = true ↔
      demandOk (bottleneck0 g p) d = true) ∧
    ((ACORouter.get_path_metrics cm g (some p) d).is_valid = true ↔
      demandOk (bottleneck0 g p) d = true) ∧
    (demandOk (bottleneck0 g p) d = false →
      QLearningRouter.get_path_metrics cm g (some p) d =
        QLMetrics.invalid "Bant genişliği kısıtı sağlanmadı" ∧
      ACORouter.get_path_metrics cm g (some p) d =
        ACOMetrics.invalid "Bant genişliği yetersiz") := by
  have heq : bottleneckInf g p = bottleneck0 g p :=
    bottleneckInf_eq_bottleneck0 g p hattr
  have hq := ql_metrics_cases cm g p d hlen
  have ha := aco_metrics_cases cm g p d hlen
  rw [heq] at hq
  have hdo := demandOk_not_ltOpt (bottleneck0 g p) d
  refine ⟨heq, ?_, ?_, ?_⟩
  · rw [hq]
    by_cases hv : ltOpt (bottleneck0 g p) d
    · rw [if_pos hv, hdo, hv]
      simp [QLMetrics.is_valid]
    · rw [if_neg hv, hdo]
      have hv' : ltOpt (bottleneck0 g p) d = false := by
        cases hlt : ltOpt (bottleneck0 g p) d
        · rfl
        · exact absurd hlt hv
      rw [hv']
      simp [QLMetrics.is_valid]
  · rw [ha]
    by_cases hv : ltOpt (bottleneck0 g p) d
    · rw [if_pos hv, hdo, hv]
      simp [ACOMetrics.is_valid]
    · rw [if_neg hv, hdo]
      have hv' : ltOpt (bottleneck0 g p) d = false := by
        cases hlt : ltOpt (bottleneck0 g p) d
        · rfl
        · exact absurd hlt hv
      rw [hv']
      simp [ACOMetrics.is_valid]
  · intro hfail
    rw [hdo, Bool.not_eq_false'] at hfail
    rw [hq, ha, if_pos hfail, if_pos hfail]
    exact ⟨rfl, rfl⟩

/-- Witness for C2 on the one-edge graph with the path `[0, 1]` and demand 5:
the two bottleneck readings agree and validity matches feasibility. -/
theorem claim_C2_metrics_feasibility_w :
    bottleneckInf gW [0, 1] = bottleneck0 gW [0, 1] ∧
    ((QLearningRouter.get_path_metrics cmConst gW (some [0, 1]) 5).is_valid = true ↔
      demandOk (bottleneck0 gW [0, 1]) 5 = true) := by
  have h := claim_C2_metrics_feasibility cmConst gW [0, 1] 5 (by decide) (by decide)
  exact ⟨h.1, h.2.1⟩

/-!  Helper lemmas: the degenerate demand src == dst. -/

/-- An episode whose source equals its destination does nothing. -/
theorem qlEpisode_self (cfg : QCfg) (cm : CostModel) (g : Network) (s : ℕ) (d : ℚ)
    (o : ℕ → Choice) (Q : QTable) (b : BestState) :
    qlEpisode cfg cm g s s d o Q b = (Q, b) := by
  unfold qlEpisode
  cases cfg.max_steps with
  | zero => rfl
  | succ m => simp [qlLoop]

/-- Training on a degenerate demand changes neither the Q-table nor the
retained best path. -/
theorem qlTrainGo_self (cfg : QCfg) (cm : CostModel) (g : Network) (s : ℕ) (d : ℚ)
    (O : ℕ → ℕ → Choice) :
    ∀ (n : ℕ) (r : QLearningRouter),
    (qlTrainGo cfg cm g s s d O n r).Q = r.Q ∧
    (qlTrainGo cfg cm g s s d O n r).best_path = r.best_path ∧
    (qlTrainGo cfg cm g s s d O n r).best_cost = r.best_cost
  | 0, r => ⟨rfl, rfl, rfl⟩
  | n + 1, r => by
    simp only [qlTrainGo, qlEpisode_self]
    exact qlTrainGo_self cfg cm g s d O n _

/-- A degenerate ant immediately returns the single-node path. -/
theorem acoConstruct_self (g : Network) (s : ℕ) (d : ℚ) (o : ℕ → ℕ)
    (hn : 1 ≤ g.nodes.length) : acoConstruct g s s d o = some [s] := by
  unfold acoConstruct
  rcases Nat.exists_eq_add_of_le hn with ⟨m, hm⟩
  rw [hm]
  show acoConstructGo g s d o (2 * (1 + m)) 0 s [s] [s] = some [s]
  have h2 : 2 * (1 + m) = (2 * m + 1) + 1 := by ring
  rw [h2]
  simp [acoConstructGo]

/-- Once the degenerate best is held, further degenerate ants keep it. -/
theorem acoAnts_self_fix (cm : CostModel) (g : Network) (s : ℕ) (d : ℚ)
    (o : ℕ → ℕ → ℕ) (hn : 1 ≤ g.nodes.length) :
    ∀ (n i : ℕ) (acc : List (List ℕ × ℚ)),
    (acoAnts cm g s s d o n i acc ⟨some [s], some (cm.cost [s])⟩).2 =
      ⟨some [s], some (cm.cost [s])⟩
  | 0, i, acc => rfl
  | n + 1, i, acc => by
    simp only [acoAnts, acoConstruct_self g s d (o i) hn]
    have hlt : ltInf (cm.cost [s]) (some (cm.cost [s])) = false := by
      simp [ltInf]
    rw [hlt]
    simp only [Bool.false_eq_true, if_false]
    exact acoAnts_self_fix cm g s d o hn n (i + 1) _

/-- With at least one ant, a degenerate iteration's ants record the
single-node path as best. -/
theorem acoAnts_self_first (cm : CostModel) (g : Network) (s : ℕ) (d : ℚ)
    (o : ℕ → ℕ → ℕ) (hn : 1 ≤ g.nodes.length) (n i : ℕ) (acc : List (List ℕ × ℚ))
    (hants : 1 ≤ n) :
    (acoAnts cm g s s d o n i acc ⟨none, none⟩).2 = ⟨some [s], some (cm.cost [s])⟩ := by
  rcases Nat.exists_eq_add_of_le hants with ⟨m, hm⟩
  rw [hm]
  show (acoAnts cm g s s d o (1 + m) i acc ⟨none, none⟩).2 = _
  have h1 : 1 + m = m + 1 := by omega
  rw [h1]
  simp only [acoAnts, acoConstruct_self g s d (o i) hn]
  have hlt : ltInf (cm.cost [s]) none = true := rfl
  rw [hlt]
  simp only [if_true]
  exact acoAnts_self_fix cm g s d o hn m (i + 1) _

/-- Once held, the degenerate best survives all remaining iterations. -/
theorem acoIterGo_self_fix (cfg : ACOCfg) (cm : CostModel) (g : Network) (s : ℕ)
    (d : ℚ) (O : ℕ → ℕ → ℕ → ℕ) (hn : 1 ≤ g.nodes.length) :
    ∀ (n it : ℕ) (ph : Pheromones),
    (acoIterGo cfg cm g s s d O n it ph ⟨some [s], some (cm.cost [s])⟩).2 =
      ⟨some [s], some (cm.cost [s])⟩
  | 0, it, ph => rfl
  | n + 1, it, ph => by
    simp only [acoIterGo]
    rw [acoAnts_self_fix cm g s d (O it) hn cfg.ant_count 0 []]
    exact acoIterGo_self_fix cfg cm g s d O hn n (it + 1) _

/-- A degenerate ACO training run returns the single-node path `[src]`. -/
theorem aco_train_self (cfg : ACOCfg) (cm : CostModel) (g : Network) (s : ℕ) (d : ℚ)
    (O : ℕ → ℕ → ℕ → ℕ) (r : ACORouter) (hiter : 1 ≤ cfg.iterations)
    (hants : 1 ≤ cfg.ant_count) (hn : 1 ≤ g.nodes.length) :
    (ACORouter.train cfg cm g s s d O r).get_best_path = some [s] := by
  unfold ACORouter.train ACORouter.get_best_path
  rcases Nat.exists_eq_add_of_le hiter with ⟨m, hm⟩
  rw [hm]
  have h1 : 1 + m = m + 1 := by omega
  rw [h1]
  show (acoIterGo cfg cm g s s d O (m + 1) 0 r.pheromones ⟨none, none⟩).2.best_path = _
  simp only [acoIterGo]
  rw [acoAnts_self_first cm g s d (O 0) hn cfg.ant_count 0 [] hants]
  rw [acoIterGo_self_fix cfg cm g s d O hn m 1 _]

/-- Counterexample to claim C3 as stated: on the concrete graph, after a
degenerate training `0 → 0` the freshly constructed Q-learning router returns
no path at all (never the single-node path `[0]`), and the single-node path
is judged invalid by `get_path_metrics`, not a valid zero-cost answer. -/
theorem claim_C3_degenerate_cex :
    (QLearningRouter.train cfgW cmConst gW 0 0 0 OEx
      (QLearningRouter.init cfgW gW)).get_best_path = none ∧
    (QLearningRouter.get_path_metrics cmConst gW (some [0]) 0).is_valid = false := by
  exact ⟨by decide, by decide⟩

/-- Claim C3, amended: for a degenerate demand (`src == dst`) every engine
terminates, but no valid single-node record is produced: `QLearningRouter`
leaves its Q-table and retained best path unchanged (so a fresh instance
returns `None`), `ACORouter` does return the trivial path `[src]` (given at
least one iteration, one ant and one node), and `get_path_metrics` of both
routers rejects the single-node path as invalid instead of reporting zero
cost, infinite bottleneck and zero hops. -/
theorem claim_C3_degenerate_amended :
    (∀ (cfg : QCfg) (cm : CostModel) (g : Network) (s : ℕ) (d : ℚ)
      (O : ℕ → ℕ → Choice) (r : QLearningRouter),
      (QLearningRouter.train cfg cm g s s d O r).Q = r.Q ∧
      (QLearningRouter.train cfg cm g s s d O r).get_best_path = r.best_path) ∧
    (∀ (cfg : ACOCfg) (cm : CostModel) (g : Network) (s : ℕ) (d : ℚ)
      (O : ℕ → ℕ → ℕ → ℕ) (r : ACORouter), 1 ≤ cfg.iterations → 1 ≤ cfg.ant_count →
      1 ≤ g.nodes.length →
      (ACORouter.train cfg cm g s s d O r).get_best_path = some [s]) ∧
    (∀ (cm : CostModel) (g : Network) (s : ℕ) (d : ℚ),
      QLearningRouter.get_path_metrics cm g (some [s]) d =
        QLMetrics.invalid "Geçerli bir yol bulunamadı") ∧
    (∀ (cm : CostModel) (g : Network) (s : ℕ) (d : ℚ),
      ACORouter.get_path_metrics cm g (some [s]) d =
        ACOMetrics.invalid "Yol bulunamadı") := by
  refine ⟨?_, ?_, ?_, ?_⟩
  · intro cfg cm g s d O r
    exact ⟨(qlTrainGo_self cfg cm g s d O cfg.episodes r).1,
      (qlTrainGo_self cfg cm g s d O cfg.episodes r).2.1⟩
  · intro cfg cm g s d O r hiter hants hn
    exact aco_train_self cfg cm g s d O r hiter hants hn
  · intro cm g s d
    rfl
  · intro cm g s d
    rfl

/-- Witness for the amended C3: on the concrete instance the degenerate ACO
training returns `[0]` while metrics reject the single-node path. -/
theorem claim_C3_degenerate_amended_w :
    (ACORouter.train aCfgW cmConst gW 0 0 0 OZ3 (ACORouter.init gW)).get_best_path =
      some [0] ∧
    QLearningRouter.get_path_metrics cmConst gW (some [0]) 0 =
      QLMetrics.invalid "Geçerli bir yol bulunamadı" :=
  ⟨claim_C3_degenerate_amended.2.1 aCfgW cmConst gW 0 0 OZ3 (ACORouter.init gW)
      (by decide) (by decide) (by decide),
   claim_C3_degenerate_amended.2.2.1 cmConst gW 0 0⟩

/-!  Helper lemmas: the pheromone table. -/

/-- Pheromone lookup on a cons cell. -/
theorem phGet?_cons (x : (ℕ × ℕ) × ℚ) (ph : Pheromones) (e : ℕ × ℕ) :
    phGet? (x :: ph) e = if x.1 = e then some x.2 else phGet? ph e := by
  unfold phGet?
  by_cases h : x.1 = e
  · rw [List.find?_cons_of_pos _ (by simp [h]), if_pos h]
    rfl
  · rw [List.find?_cons_of_neg _ (by simp [h]), if_neg h]

/-- Lookup after the in-place dict update of `phSet`. -/
theorem phGet?_mapUpd (ph : Pheromones) (e : ℕ × ℕ) (v : ℚ) (e' : ℕ × ℕ) :
    phGet? (ph.map (fun x => if x.1 = e then (x.1, v) else x)) e' =
      if e' = e then (phGet? ph e).map (fun _ => v) else phGet? ph e' := by
  induction ph with
  | nil =>
    by_cases h : e' = e <;> simp [phGet?, h]
  | cons y ph ih =>
    by_cases hy : y.1 = e
    · by_cases hy' : y.1 = e'
      · have he' : e' = e := by rw [← hy', hy]
        simp [List.map_cons, phGet?_cons, hy, hy', he']
      · have he' : ¬ e' = e := fun hc => hy' (by rw [hy, ← hc])
        have he2 : ¬ e = e' := fun hc => he' hc.symm
        simp [List.map_cons, phGet?_cons, hy, hy', he', he2, ih]
    · by_cases hy' : y.1 = e'
      · have he' : ¬ e' = e := fun hc => hy (by rw [hy', hc])
        simp [List.map_cons, phGet?_cons, hy, hy', he']
      · by_cases he' : e' = e
        · subst he'
          simp [List.map_cons, phGet?_cons, hy, hy', ih]
        · simp [List.map_cons, phGet?_cons, hy, hy', he', ih]

/-- Lookup after appending a fresh key. -/
theorem phGet?_append_single (ph : Pheromones) (e : ℕ × ℕ) (v : ℚ) (e' : ℕ × ℕ) :
    phGet? (ph ++ [(e, v)]) e' =
      match phGet? ph e' with
      | some w => some w
      | none => if e' = e then some v else none := by
  induction ph with
  | nil =>
    rw [List.nil_append]
    by_cases h : e' = e
    · subst h
      simp [phGet?_cons, phGet?]
    · have h' : ¬ (e, v).1 = e' := fun hc => h (by rw [← hc])
      rw [phGet?_cons, if_neg h']
      show phGet? [] e' = _
      by_cases hh : e' = e
      · exact absurd hh h
      · simp [phGet?, hh]
  | cons y ph ih =>
    rw [List.cons_append, phGet?_cons, phGet?_cons]
    by_cases hy : y.1 = e'
    · rw [if_pos hy, if_pos hy]
    · rw [if_neg hy, if_neg hy, ih]

/-- Lookup after the dict assignment `phSet`. -/
theorem phGet?_phSet (ph : Pheromones) (e : ℕ × ℕ) (v : ℚ) (e' : ℕ × ℕ) :
    phGet? (phSet ph e v) e' = if e' = e then some v else phGet? ph e' := by
  unfold phSet
  by_cases hany : ph.any (fun x => decide (x.1 = e))
  · rw [if_pos hany, phGet?_mapUpd]
    by_cases he : e' = e
    · rw [if_pos he, if_pos he]
      rcases List.any_eq_true.1 hany with ⟨x, hx, hpx⟩
      have hsome : (ph.find? (fun y => decide (y.1 = e))).isSome := by
        rw [List.find?_isSome]
        exact ⟨x, hx, hpx⟩
      rcases Option.isSome_iff_exists.1 hsome with ⟨w, hw⟩
      unfold phGet?
      rw [hw]
      rfl
    · rw [if_neg he, if_neg he]
  · rw [if_neg hany, phGet?_append_single]
    have hnone : phGet? ph e = none := by
      unfold phGet?
      have hfn : ph.find? (fun y => decide (y.1 = e)) = none := by
        rw [List.find?_eq_none]
        intro x hx hpx
        exact hany (List.any_eq_true.2 ⟨x, hx, hpx⟩)
      rw [hfn]
      rfl
    by_cases he : e' = e
    · subst he
      rw [hnone, if_pos rfl]
    · cases hget : phGet? ph e' with
      | some w => simp [he]
      | none => simp [he]

/-- Lookup after the conditional increment `phAdd`. -/
theorem phGet?_phAdd (ph : Pheromones) (e : ℕ × ℕ) (d : ℚ) (e' : ℕ × ℕ) :
    phGet? (phAdd ph e d) e' =
      if e' = e then (phGet? ph e).map (fun w => w + d) else phGet? ph e' := by
  unfold phAdd
  cases hget : phGet? ph e with
  | none =>
    by_cases he : e' = e
    · subst he
      rw [hget, if_pos rfl]
      rfl
    · rw [if_neg he]
  | some w =>
    rw [phGet?_phSet]
    by_cases he : e' = e
    · rw [if_pos he, if_pos he]
      rfl
    · rw [if_neg he, if_neg he]

/-- Lookup after evaporation: every present value is multiplied by
`1 - evaporation` and floored at 0.01. -/
theorem phGet?_evaporate (evap : ℚ) (ph : Pheromones) (e : ℕ × ℕ) :
    phGet? (evaporate evap ph) e =
      (phGet? ph e).map (fun w =>
        if w * (1 - evap) < 1 / 100 then 1 / 100 else w * (1 - evap)) := by
  induction ph with
  | nil => rfl
  | cons x ph ih =>
    show phGet? ((x.1, if x.2 * (1 - evap) < 1 / 100 then 1 / 100 else x.2 * (1 - evap))
      :: evaporate evap ph) e = _
    rw [phGet?_cons, phGet?_cons]
    by_cases hx : x.1 = e
    · rw [if_pos hx, if_pos hx]
      rfl
    · rw [if_neg hx, if_neg hx, ih]

/-- A looked-up value is a stored value. -/
theorem phGet?_mem (ph : Pheromones) (e : ℕ × ℕ) (w : ℚ) (h : phGet? ph e = some w) :
    ∃ x ∈ ph, x.2 = w := by
  unfold phGet? at h
  cases hf : ph.find? (fun x => decide (x.1 = e)) with
  | none =>
    rw [hf] at h
    exact absurd h (by simp)
  | some x =>
    rw [hf] at h
    exact ⟨x, List.mem_of_find?_eq_some hf, Option.some.inj h⟩

/-- Consecutive pairs of a simple path have distinct endpoints. -/
theorem pairs_ne : ∀ (p : List ℕ), p.Nodup → ∀ uv ∈ pairs p, uv.1 ≠ uv.2
  | [], _, uv, h => absurd h (by simp [pairs])
  | [u], _, uv, h => absurd h (by simp [pairs])
  | u :: v :: t, hnd, uv, h => by
    rcases List.mem_cons.1 h with h1 | h1
    · subst h1
      intro hc
      have hc' : u = v := hc
      rcases List.nodup_cons.1 hnd with ⟨hu, _⟩
      exact hu (by rw [hc']; exact List.mem_cons_self _ _)
    · exact pairs_ne (v :: t) (List.nodup_cons.1 hnd).2 uv h1

/-- Effect of the deposit fold of `_update_pheromones` on one key: the
deposit is added once for each traversed pair matching the key in either
orientation. -/
theorem depositFold_phGet (dep : ℚ) :
    ∀ (L : List (ℕ × ℕ)) (ph : Pheromones) (e : ℕ × ℕ),
    (∀ uv ∈ L, uv.1 ≠ uv.2) →
    phGet? (L.foldl (fun acc uv => phAdd (phAdd acc (uv.1, uv.2) dep) (uv.2, uv.1) dep) ph) e =
    (phGet? ph e).map
      (fun w => w + (L.countP (fun uv => decide (uv = e ∨ (uv.2, uv.1) = e))) * dep)
  | [], ph, e => fun _ => by
    cases hg : phGet? ph e with
    | none => simp [hg]
    | some w => simp [hg]
  | uv :: L, ph, e => fun hL => by
    have h0 : uv.1 ≠ uv.2 := hL uv (List.mem_cons_self _ _)
    have hstep := depositFold_phGet dep L
      (phAdd (phAdd ph (uv.1, uv.2) dep) (uv.2, uv.1) dep) e
      (fun w hw => hL w (List.mem_cons_of_mem _ hw))
    rw [List.foldl_cons, hstep, List.countP_cons]
    by_cases h1 : e = (uv.1, uv.2)
    · have h2 : ¬ e = (uv.2, uv.1) := by
        intro hc
        rw [h1] at hc
        exact h0 (Prod.ext_iff.1 hc).1
      have hm : uv = e ∨ (uv.2, uv.1) = e := Or.inl (by rw [h1])
      have hd : phGet? (phAdd (phAdd ph (uv.1, uv.2) dep) (uv.2, uv.1) dep) e =
          (phGet? ph e).map (fun w => w + dep) := by
        rw [phGet?_phAdd, if_neg h2, phGet?_phAdd, if_pos h1, ← h1]
      rw [hd, decide_eq_true hm]
      cases hg : phGet? ph e with
      | none => simp
      | some w =>
        simp only [Option.map_some', Option.some.injEq, if_pos rfl]
        push_cast
        ring
    · by_cases h2 : e = (uv.2, uv.1)
      · have hm : uv = e ∨ (uv.2, uv.1) = e := Or.inr (by rw [h2])
        have hBA : ¬ ((uv.2, uv.1) : ℕ × ℕ) = (uv.1, uv.2) := by
          intro hc
          exact h0 ((Prod.ext_iff.1 hc).2)
        have hd : phGet? (phAdd (phAdd ph (uv.1, uv.2) dep) (uv.2, uv.1) dep) e =
            (phGet? ph e).map (fun w => w + dep) := by
          rw [phGet?_phAdd, if_pos h2, phGet?_phAdd, if_neg hBA, ← h2]
        rw [hd, decide_eq_true hm]
        cases hg : phGet? ph e with
        | none => simp
        | some w =>
          simp only [Option.map_some', Option.some.injEq, if_pos rfl]
          push_cast
          ring
      · have hm : ¬ (uv = e ∨ (uv.2, uv.1) = e) := by
          rintro (hc | hc)
          · exact h1 (by rw [← hc])
          · exact h2 hc.symm
        have hd : phGet? (phAdd (phAdd ph (uv.1, uv.2) dep) (uv.2, uv.1) dep) e =
            phGet? ph e := by
          rw [phGet?_phAdd, if_neg h2, phGet?_phAdd, if_neg h1]
        rw [hd, decide_eq_false hm]
        cases hg : phGet? ph e with
        | none => simp
        | some w => simp

/-- In the traversed pairs of a simple path, any key matches at most once in
either orientation: the match count is 1 on used edges and 0 elsewhere. -/
theorem countP_pairs_nodup : ∀ (p : List ℕ), p.Nodup → ∀ e : ℕ × ℕ,
    (pairs p).countP (fun uv => decide (uv = e ∨ (uv.2, uv.1) = e)) =
    if e ∈ pairs p ∨ (e.2, e.1) ∈ pairs p then 1 else 0
  | [], _, e => by simp [pairs]
  | [u], _, e => by simp [pairs]
  | u :: v :: t, hnd, e => by
    rcases List.nodup_cons.1 hnd with ⟨hu, hnd'⟩
    have hps : pairs (u :: v :: t) = (u, v) :: pairs (v :: t) := rfl
    rw [hps, List.countP_cons]
    by_cases hhead : (u, v) = e ∨ (v, u) = e
    · have hzero : (pairs (v :: t)).countP
          (fun uv => decide (uv = e ∨ (uv.2, uv.1) = e)) = 0 := by
        rw [List.countP_eq_zero]
        intro uv huv hdec
        have hmem := pairs_mem_left (v :: t) uv huv
        rcases of_decide_eq_true hdec with hc | hc
        · rcases hhead with he | he
          · rw [← he] at hc
            subst hc
            exact hu hmem.1
          · rw [← he] at hc
            subst hc
            exact hu hmem.2
        · rcases hhead with he | he
          · rw [← he] at hc
            have hx : uv.2 = u := (Prod.ext_iff.1 hc).1
            exact hu (hx ▸ hmem.2)
          · rw [← he] at hc
            have hx : uv.1 = u := (Prod.ext_iff.1 hc).2
            exact hu (hx ▸ hmem.1)
      have hcond : e ∈ (u, v) :: pairs (v :: t) ∨ (e.2, e.1) ∈ (u, v) :: pairs (v :: t) := by
        rcases hhead with he | he
        · exact Or.inl (by rw [← he]; exact List.mem_cons_self _ _)
        · refine Or.inr ?_
          have hsw : ((e.2, e.1) : ℕ × ℕ) = (u, v) := by
            rw [← he]
          rw [hsw]
          exact List.mem_cons_self _ _
      rw [if_pos hcond, hzero, decide_eq_true hhead]
      simp
    · have hc1 : ¬ (u, v) = e := fun hc => hhead (Or.inl hc)
      have hc2 : ¬ (v, u) = e := fun hc => hhead (Or.inr hc)
      have hdec : decide ((u, v) = e ∨ (((u, v) : ℕ × ℕ).2, ((u, v) : ℕ × ℕ).1) = e) = false := by
        refine decide_eq_false ?_
        rintro (hc | hc)
        · exact hc1 hc
        · exact hc2 hc
      rw [hdec, countP_pairs_nodup (v :: t) hnd' e]
      have hiff : (e ∈ (u, v) :: pairs (v :: t) ∨ (e.2, e.1) ∈ (u, v) :: pairs (v :: t)) ↔
          (e ∈ pairs (v :: t) ∨ (e.2, e.1) ∈ pairs (v :: t)) := by
        constructor
        · rintro (hc | hc)
          · rcases List.mem_cons.1 hc with hc' | hc'
            · exact absurd hc'.symm hc1
            · exact Or.inl hc'
          · rcases List.mem_cons.1 hc with hc' | hc'
            · refine absurd ?_ hc2
              have hx1 : e.2 = u := (Prod.ext_iff.1 hc').1
              have hx2 : e.1 = v := (Prod.ext_iff.1 hc').2
              rw [← hx1, ← hx2]
            · exact Or.inr hc'
        · rintro (hc | hc)
          · exact Or.inl (List.mem_cons_of_mem _ hc)
          · exact Or.inr (List.mem_cons_of_mem _ hc)
      by_cases hin : e ∈ pairs (v :: t) ∨ (e.2, e.1) ∈ pairs (v :: t)
      · rw [if_pos (hiff.2 hin), if_pos hin]
        simp
      · rw [if_neg (fun hc => hin (hiff.1 hc)), if_neg hin]
        simp

/-- Effect of one `_update_pheromones` round with a single successful ant on
a uniform table: every present key evaporates from 1.0 to
`max(1.0 * 0.5, 0.01) = 0.5` and, when the ant traversed it in either
orientation, additionally receives the deposit `q / (cost + 0.0001)`. -/
theorem pheromone_update_single (cfg : ACOCfg) (ph : Pheromones) (p : List ℕ) (c : ℚ)
    (e : ℕ × ℕ) (hev : cfg.evaporation = 1 / 2) (huni : ∀ x ∈ ph, x.2 = 1)
    (hnd : p.Nodup) (hpres : (phGet? ph e).isSome = true) :
    phGet? (updatePheromones cfg ph [(p, c)]) e =
      some (if e ∈ pairs p ∨ (e.2, e.1) ∈ pairs p
            then 1 * (1 / 2) + cfg.q / (c + 1 / 10000)
            else max (1 * (1 / 2)) (1 / 100)) := by
  rcases Option.isSome_iff_exists.1 hpres with ⟨w, hw⟩
  have hw1 : w = 1 := by
    rcases phGet?_mem ph e w hw with ⟨x, hx, hxw⟩
    rw [← hxw]
    exact huni x hx
  subst hw1
  show phGet? ((pairs p).foldl
    (fun acc uv => phAdd (phAdd acc (uv.1, uv.2) (cfg.q / (c + 1 / 10000)))
      (uv.2, uv.1) (cfg.q / (c + 1 / 10000)))
    (evaporate cfg.evaporation ph)) e = _
  rw [depositFold_phGet (cfg.q / (c + 1 / 10000)) (pairs p)
    (evaporate cfg.evaporation ph) e (pairs_ne p hnd)]
  rw [phGet?_evaporate, hev, hw]
  simp only [Option.map_some']
  have hev1 : (if (1 : ℚ) * (1 - 1 / 2) < 1 / 100 then (1 / 100 : ℚ)
      else 1 * (1 - 1 / 2)) = 1 / 2 := by norm_num
  rw [hev1, countP_pairs_nodup p hnd e]
  by_cases hused : e ∈ pairs p ∨ (e.2, e.1) ∈ pairs p
  · rw [if_pos hused, if_pos hused, Option.some.injEq]
    push_cast
    ring
  · rw [if_neg hused, if_neg hused, Option.some.injEq]
    have hmax : max ((1 : ℚ) * (1 / 2)) (1 / 100) = 1 / 2 := by
      rw [max_eq_left (by norm_num)]
      norm_num
    rw [hmax]
    push_cast
    ring

/-- Counterexample to claim C6 as stated: in the claim's scenario
(evaporation 0.5, uniform pheromone 1.0, one successful ant with path
`[0, 1]` and cost 1 on the path graph), the pheromone on the used directed
edge `(0, 1)` does not equal `1.0 * 0.5 + q / cost`: the code deposits
`q / (cost + 0.0001)`, not `q / cost`. -/
theorem claim_C6_pheromone_cex :
    phGet? (updatePheromones aCfgW (initPheromones gP) [([0, 1], 1)]) (0, 1) ≠
      some (1 * (1 / 2) + aCfgW.q / 1) := by
  have h := pheromone_update_single aCfgW (initPheromones gP) [0, 1] 1 (0, 1)
    rfl (by decide) (by decide) (by decide)
  rw [h, if_pos (by decide), Ne, Option.some.injEq]
  show ¬ 1 * (1 / 2) + (100 : ℚ) / (1 + 1 / 10000) = 1 * (1 / 2) + (100 : ℚ) / 1
  norm_num

/-- Claim C6, amended: in the ACO pheromone update with evaporation 0.5 and
every directed edge starting at pheromone 1.0, after one iteration in which
exactly one successful ant with a simple path of cost `cost` deposited, the
pheromone on every directed edge the ant used (in either orientation, since
the code deposits on both) equals `1.0 * 0.5 + q / (cost + 0.0001)`, and on
every other stored edge it equals `max(1.0 * 0.5, floor) = 0.5` with floor
0.01. -/
theorem claim_C6_pheromone_update_amended (cfg : ACOCfg) (ph : Pheromones)
    (p : List ℕ) (c : ℚ) (e : ℕ × ℕ) (hev : cfg.evaporation = 1 / 2)
    (huni : ∀ x ∈ ph, x.2 = 1) (hnd : p.Nodup)
    (hpres : (phGet? ph e).isSome = true) :
    phGet? (updatePheromones cfg ph [(p, c)]) e =
      some (if e ∈ pairs p ∨ (e.2, e.1) ∈ pairs p
            then 1 * (1 / 2) + cfg.q / (c + 1 / 10000)
            else max (1 * (1 / 2)) (1 / 100)) :=
  pheromone_update_single cfg ph p c e hev huni hnd hpres

/-- Witness for the amended C6 on the path graph: the edge `(1, 2)`, unused
by the ant `[0, 1]`, evaporates to `max(0.5, 0.01)`. -/
theorem claim_C6_pheromone_update_amended_w :
    phGet? (updatePheromones aCfgW (initPheromones gP) [([0, 1], 1)]) (1, 2) =
      some (if (1, 2) ∈ pairs [0, 1] ∨ (2, 1) ∈ pairs [0, 1]
            then 1 * (1 / 2) + aCfgW.q / (1 + 1 / 10000)
            else max (1 * (1 / 2)) (1 / 100)) :=
  claim_C6_pheromone_update_amended aCfgW (initPheromones gP) [0, 1] 1 (1, 2)
    rfl (by decide) (by decide) (by decide)

/-- Counterexample to claim C8 as stated: one `train` call on the path graph
leaves the pheromone of the directed edge `(0, 1)` different from its uniform
initial value 1.0, and since `train` never reinitializes the table (the reset
call in its body is commented out), the next independent run on the same
instance starts from this learned table, not from the uniform one. -/
theorem claim_C8_pheromone_reset_cex :
    phGet? (ACORouter.train aCfgW cmConst gP 0 1 0 OZ3
      (ACORouter.init gP)).pheromones (0, 1) ≠ some 1 := by
  have htr : (ACORouter.train aCfgW cmConst gP 0 1 0 OZ3 (ACORouter.init gP)).pheromones =
      updatePheromones aCfgW (initPheromones gP) [([0, 1], 1)] := rfl
  rw [htr]
  have h := pheromone_update_single aCfgW (initPheromones gP) [0, 1] 1 (0, 1)
    rfl (by decide) (by decide) (by decide)
  rw [h, if_pos (by decide), Ne, Option.some.injEq]
  show ¬ 1 * (1 / 2) + (100 : ℚ) / (1 + 1 / 10000) = 1
  norm_num

/-- Claim C8, amended: the pheromone table is initialized to 1.0 per directed
edge once, at construction, and `ACORouter.train` does not reset it: a call
with zero iterations returns the incoming pheromone table unchanged (only
`best_path`/`best_cost` are cleared), so pheromones learned in one run carry
over into the next `train` call on the same instance. -/
theorem claim_C8_pheromones_persist_amended :
    (∀ (g : Network), ∀ x ∈ initPheromones g, x.2 = 1) ∧
    (∀ (cfg : ACOCfg) (cm : CostModel) (g : Network) (src dst : ℕ) (demand : ℚ)
      (O : ℕ → ℕ → ℕ → ℕ) (r : ACORouter), cfg.iterations = 0 →
      ACORouter.train cfg cm g src dst demand O r = ⟨none, none, r.pheromones⟩) := by
  constructor
  · intro g
    unfold initPheromones
    generalize g.edges = L
    suffices h : ∀ (L : List (ℕ × ℕ × EdgeData)) (acc : Pheromones),
        (∀ x ∈ acc, x.2 = 1) →
        ∀ x ∈ L.foldl (fun acc e => phSet (phSet acc (e.1, e.2.1) 1) (e.2.1, e.1) 1) acc,
        x.2 = 1 by
      exact h L [] (by simp)
    intro L
    induction L with
    | nil => exact fun acc hacc => hacc
    | cons ed L ih =>
      intro acc hacc
      refine ih _ ?_
      have hset : ∀ (ph : Pheromones) (e : ℕ × ℕ), (∀ x ∈ ph, x.2 = 1) →
          ∀ x ∈ phSet ph e 1, x.2 = 1 := by
        intro ph e hph x hx
        unfold phSet at hx
        by_cases hany : ph.any (fun y => decide (y.1 = e))
        · rw [if_pos hany] at hx
          rcases List.mem_map.1 hx with ⟨y, hy, hxy⟩
          by_cases hkey : y.1 = e
          · rw [if_pos hkey] at hxy
            rw [← hxy]
          · rw [if_neg hkey] at hxy
            rw [← hxy]
            exact hph y hy
        · rw [if_neg hany] at hx
          rcases List.mem_append.1 hx with hx' | hx'
          · exact hph x hx'
          · rw [List.mem_singleton] at hx'
            rw [hx']
      exact hset _ _ (hset _ _ hacc)
  · intro cfg cm g src dst demand O r h0
    unfold ACORouter.train
    rw [h0]
    rfl

/-- Witness for the amended C8: a zero-iteration training call keeps the
initial pheromone table and clears the best state. -/
theorem claim_C8_pheromones_persist_amended_w :
    ACORouter.train ⟨1, 0, 1, 2, 1 / 2, 100⟩ cmConst gW 0 1 0 OZ3
      (ACORouter.init gW) = ⟨none, none, (ACORouter.init gW).pheromones⟩ :=
  claim_C8_pheromones_persist_amended.2 ⟨1, 0, 1, 2, 1 / 2, 100⟩ cmConst gW 0 1 0 OZ3
    (ACORouter.init gW) rfl

/-- Claim C7: every step of `QLearningRouter.train` updates the taken
(state, action) pair by the temporal-difference rule
`Q[s][a] += alpha * (reward + gamma * max(Q[next_state].values()) - Q[s][a])`;
the reward is the constant `step_penalty + progress_bonus`, replaced on
reaching `dst` by `2000.0` divided by the path's weighted cost from the
shared cost model when the running bottleneck satisfies the demand (the code
clamps the divisor below by `1e-6`, so the hypothesis assumes the cost is at
least that floor), and by the fixed `-1.0` otherwise. -/
theorem claim_C7_td_update (cfg : QCfg) (cm : CostModel) (g : Network) (dst : ℕ)
    (demand : ℚ) (o : ℕ → Choice) (k state : ℕ) (visited path : List ℕ)
    (minbw : Option ℚ) (Q : QTable) (b : BestState) (action : ℕ)
    (hsd : ¬ state = dst)
    (hae : ¬ qlActions Q state visited = [])
    (hact : action = qlChoose (qrow Q state) (qlActions Q state visited) (o k))
    (hclamp : action = dst →
      demandOk (minO minbw (some (bw0 g state action))) demand = true →
      1 / 1000000 ≤ cm.cost (path ++ [action])) :
    qval (qrow (qlLoop cfg cm g dst demand o 1 k state visited path minbw Q b).1 state)
        action =
      qval (qrow Q state) action +
        cfg.alpha *
          ((if action = dst then
              (if demandOk (minO minbw (some (bw0 g state action))) demand = true
               then 2000 / cm.cost (path ++ [action])
               else -1)
            else cfg.step_penalty + cfg.progress_bonus) +
            cfg.gamma * maxQrow (qrow Q action) - qval (qrow Q state) action) := by
  have hkey : action ∈ (qrow Q state).map Prod.fst := by
    rw [hact]
    exact (qlActions_mem Q state visited _ (qlChoose_mem _ _ _ hae)).1
  have hreward : (qlBestUpd cfg cm demand dst action (path ++ [action])
      (minO minbw (some (bw0 g state action))) b).1 =
      (if action = dst then
        (if demandOk (minO minbw (some (bw0 g state action))) demand = true
         then 2000 / cm.cost (path ++ [action])
         else -1)
      else cfg.step_penalty + cfg.progress_bonus) := by
    unfold qlBestUpd
    by_cases had : action = dst
    · rw [if_pos had, if_pos had]
      by_cases hok : demandOk (minO minbw (some (bw0 g state action))) demand = true
      · rw [if_pos hok, if_pos hok]
        have hmax : max (cm.cost (path ++ [action])) (1 / 1000000) =
            cm.cost (path ++ [action]) := max_eq_left (hclamp had hok)
        by_cases hlt : ltInf (max (cm.cost (path ++ [action])) (1 / 1000000)) b.best_cost
        · rw [if_pos hlt, hmax]
        · rw [if_neg hlt, hmax]
      · rw [if_neg hok, if_neg hok]
    · rw [if_neg had, if_neg had]
  simp only [qlLoop]
  rw [if_neg hsd, if_neg hae, ← hact]
  rw [qrow_setQ, if_pos rfl, qval_rowUpd _ _ _ hkey, hreward]

/-- Witness for C7: one concrete step from node 0 toward destination 1 on the
one-edge graph. -/
theorem claim_C7_td_update_w :
    qval (qrow (qlLoop cfgW cmConst gW 1 0 oEx 1 0 0 [0] [0] none (initQ gW)
        ⟨none, none⟩).1 0) 1 =
      qval (qrow (initQ gW) 0) 1 +
        cfgW.alpha *
          ((if (1 : ℕ) = 1 then
              (if demandOk (minO none (some (bw0 gW 0 1))) 0 = true
               then 2000 / cmConst.cost ([0] ++ [1])
               else -1)
            else cfgW.step_penalty + cfgW.progress_bonus) +
            cfgW.gamma * maxQrow (qrow (initQ gW) 1) - qval (qrow (initQ gW) 0) 1) :=
  claim_C7_td_update cfgW cmConst gW 1 0 oEx 0 0 [0] [0] none (initQ gW)
    ⟨none, none⟩ 1 (by decide) (by decide) (by decide)
    (fun _ _ => by norm_num [cmConst, CostModel.cost])

/-- Counterexample to claim C5 as stated: `run_multiple` resets epsilon to
the hardcoded 1.0, not to the configured initial level. With
`initial_epsilon = 1/2` and zero episodes (so no decay ever happens), after
one run the router's epsilon is 1, not the initial 1/2. -/
theorem claim_C5_run_multiple_cex :
    (QLearningRouter.run_multiple cfgE cmConst gW 0 1 0 OEx3 1
      (QLearningRouter.init cfgE gW)).2.epsilon ≠ cfgE.initial_epsilon := by
  have h1 : (QLearningRouter.run_multiple cfgE cmConst gW 0 1 0 OEx3 1
      (QLearningRouter.init cfgE gW)).2.epsilon = 1 := rfl
  have h2 : cfgE.initial_epsilon = 1 / 2 := rfl
  rw [h1, h2]
  norm_num

/-- Independence of `run_multiple` from the incoming router state: with at
least one run, the first reset discards it entirely. -/
theorem runMultipleGo_indep (cfg : QCfg) (cm : CostModel) (g : Network) (src dst : ℕ)
    (demand : ℚ) (O : ℕ → ℕ → ℕ → Choice) (n i : ℕ)
    (gb : Option (List ℕ) × Option ℚ) (r r' : QLearningRouter) (hn : 1 ≤ n) :
    runMultipleGo cfg cm g src dst demand O n i gb r =
    runMultipleGo cfg cm g src dst demand O n i gb r' := by
  rcases Nat.exists_eq_add_of_le hn with ⟨m, hm⟩
  subst hm
  rw [Nat.add_comm 1 m]
  rfl

/-- Specification of the `run_multiple` loop: the accumulated global best is
`None` exactly when every processed run retained nothing, and otherwise it is
one of the run results, carries its recomputed cost, and its cost is at most
the recomputed cost of every processed run's result. -/
theorem runMultipleGo_spec (cfg : QCfg) (cm : CostModel) (g : Network) (src dst : ℕ)
    (demand : ℚ) (O : ℕ → ℕ → ℕ → Choice) :
    ∀ (n i : ℕ) (gb : Option (List ℕ) × Option ℚ) (r : QLearningRouter),
    (gb.1 = none → gb.2 = none ∧
      ∀ j, j < i → qlRunResult cfg cm g src dst demand O j = none) →
    (∀ p, gb.1 = some p → gb.2 = some (cm.cost p) ∧
      (∃ j, j < i ∧ qlRunResult cfg cm g src dst demand O j = some p) ∧
      (∀ j, j < i → ∀ q, qlRunResult cfg cm g src dst demand O j = some q →
        cm.cost p ≤ cm.cost q)) →
    (((runMultipleGo cfg cm g src dst demand O n i gb r).1.1 = none →
      (runMultipleGo cfg cm g src dst demand O n i gb r).1.2 = none ∧
      ∀ j, j < i + n → qlRunResult cfg cm g src dst demand O j = none) ∧
    (∀ p, (runMultipleGo cfg cm g src dst demand O n i gb r).1.1 = some p →
      (runMultipleGo cfg cm g src dst demand O n i gb r).1.2 = some (cm.cost p) ∧
      (∃ j, j < i + n ∧ qlRunResult cfg cm g src dst demand O j = some p) ∧
      (∀ j, j < i + n → ∀ q, qlRunResult cfg cm g src dst demand O j = some q →
        cm.cost p ≤ cm.cost q)))
  | 0, i, gb, r => fun hA hB => by
    constructor
    · intro h
      rcases hA h with ⟨h2, h3⟩
      exact ⟨h2, fun j hj => h3 j (by omega)⟩
    · intro p hp
      rcases hB p hp with ⟨h2, ⟨j, hj, hj2⟩, h4⟩
      exact ⟨h2, ⟨j, by omega, hj2⟩, fun j hj q hq => h4 j (by omega) q hq⟩
  | n + 1, i, gb, r => fun hA hB => by
    have hres : (QLearningRouter.train cfg cm g src dst demand (O i)
        ⟨initQ g, 1, none, none⟩).best_path =
        qlRunResult cfg cm g src dst demand O i := rfl
    have hidx : i + 1 + n = i + (n + 1) := by omega
    simp only [runMultipleGo]
    rw [hres]
    rcases hcase : qlRunResult cfg cm g src dst demand O i with _ | p0
    · have hA' : gb.1 = none → gb.2 = none ∧
          ∀ j, j < i + 1 → qlRunResult cfg cm g src dst demand O j = none := by
        intro h
        rcases hA h with ⟨h2, h3⟩
        refine ⟨h2, fun j hj => ?_⟩
        rcases Nat.lt_succ_iff_lt_or_eq.1 hj with h' | h'
        · exact h3 j h'
        · rw [h']
          exact hcase
      have hB' : ∀ p, gb.1 = some p → gb.2 = some (cm.cost p) ∧
          (∃ j, j < i + 1 ∧ qlRunResult cfg cm g src dst demand O j = some p) ∧
          (∀ j, j < i + 1 → ∀ q, qlRunResult cfg cm g src dst demand O j = some q →
            cm.cost p ≤ cm.cost q) := by
        intro p hp
        rcases hB p hp with ⟨h2, ⟨j, hj, hj2⟩, h4⟩
        refine ⟨h2, ⟨j, by omega, hj2⟩, fun j hj q hq => ?_⟩
        rcases Nat.lt_succ_iff_lt_or_eq.1 hj with h' | h'
        · exact h4 j h' q hq
        · rw [h', hcase] at hq
          exact absurd hq (by simp)
      have hrec := runMultipleGo_spec cfg cm g src dst demand O n (i + 1) gb
        (QLearningRouter.train cfg cm g src dst demand (O i)
          ⟨initQ g, 1, none, none⟩) hA' hB'
      rw [hidx] at hrec
      exact hrec
    · have hgb' : (match some p0 with
          | none => gb
          | some p => if ltInf (cm.cost p) gb.2 = true
                      then (some p, some (cm.cost p)) else gb) =
          if ltInf (cm.cost p0) gb.2 = true
          then (some p0, some (cm.cost p0)) else gb := rfl
      rw [hgb']
      by_cases hlt : ltInf (cm.cost p0) gb.2 = true
      · rw [if_pos hlt]
        have hA' : (some p0, some (cm.cost p0)).1 = none → (some p0, some (cm.cost p0)).2 = none ∧
            ∀ j, j < i + 1 → qlRunResult cfg cm g src dst demand O j = none := by
          intro h
          exact absurd h (by simp)
        have hB' : ∀ p, (some p0, some (cm.cost p0)).1 = some p →
            (some p0, some (cm.cost p0)).2 = some (cm.cost p) ∧
            (∃ j, j < i + 1 ∧ qlRunResult cfg cm g src dst demand O j = some p) ∧
            (∀ j, j < i + 1 → ∀ q, qlRunResult cfg cm g src dst demand O j = some q →
              cm.cost p ≤ cm.cost q) := by
          intro p hp
          have hpp : p = p0 := by simpa using hp.symm
          subst hpp
          refine ⟨rfl, ⟨i, by omega, hcase⟩, fun j hj q hq => ?_⟩
          rcases Nat.lt_succ_iff_lt_or_eq.1 hj with h' | h'
          · cases hgb : gb.1 with
            | none =>
              rcases hA hgb with ⟨_, h3⟩
              rw [h3 j h'] at hq
              exact absurd hq (by simp)
            | some pOld =>
              rcases hB pOld hgb with ⟨h2, _, h4⟩
              have hlt' : cm.cost p < cm.cost pOld := by
                rw [h2] at hlt
                simpa [ltInf] using hlt
              exact le_trans (le_of_lt hlt') (h4 j h' q hq)
          · rw [h', hcase] at hq
            have hqp : q = p := by simpa using hq.symm
            rw [hqp]
        have hrec := runMultipleGo_spec cfg cm g src dst demand O n (i + 1)
          (some p0, some (cm.cost p0))
          (QLearningRouter.train cfg cm g src dst demand (O i)
            ⟨initQ g, 1, none, none⟩) hA' hB'
        rw [hidx] at hrec
        exact hrec
      · rw [if_neg hlt]
        have hA' : gb.1 = none → gb.2 = none ∧
            ∀ j, j < i + 1 → qlRunResult cfg cm g src dst demand O j = none := by
          intro h
          rcases hA h with ⟨h2, _⟩
          rw [h2] at hlt
          exact absurd rfl hlt
        have hB' : ∀ p, gb.1 = some p → gb.2 = some (cm.cost p) ∧
            (∃ j, j < i + 1 ∧ qlRunResult cfg cm g src dst demand O j = some p) ∧
            (∀ j, j < i + 1 → ∀ q, qlRunResult cfg cm g src dst demand O j = some q →
              cm.cost p ≤ cm.cost q) := by
          intro p hp
          rcases hB p hp with ⟨h2, ⟨j, hj, hj2⟩, h4⟩
          refine ⟨h2, ⟨j, by omega, hj2⟩, fun j hj q hq => ?_⟩
          rcases Nat.lt_succ_iff_lt_or_eq.1 hj with h' | h'
          · exact h4 j h' q hq
          · rw [h', hcase] at hq
            have hq0 : q = p0 := by simpa using hq.symm
            subst hq0
            have hnlt : ¬ cm.cost q < cm.cost p := by
              rw [h2] at hlt
              intro hc
              exact hlt (by simpa [ltInf] using hc)
            exact not_lt.1 hnlt
        have hrec := runMultipleGo_spec cfg cm g src dst demand O n (i + 1) gb
          (QLearningRouter.train cfg cm g src dst demand (O i)
            ⟨initQ g, 1, none, none⟩) hA' hB'
        rw [hidx] at hrec
        exact hrec

/-- Claim C5, amended: `run_multiple(src, dst, demand_bw, runs)` starts each
run from fresh internal state — the Q-table rebuilt with all zeros over
(node, neighbor) pairs and the retained best path cleared, so the result is
independent of the incoming router state — but epsilon is set to the
hardcoded default 1.0, not the configured `initial_epsilon`. It returns
`None` iff no constituent run retained a (feasible) path, and otherwise a
feasible path whose recomputed scalar cost is at most the recomputed cost of
every constituent run's result. -/
theorem claim_C5_run_multiple_amended :
    (∀ (cfg : QCfg) (cm : CostModel) (g : Network) (src dst : ℕ) (demand : ℚ)
      (O : ℕ → ℕ → ℕ → Choice) (runs : ℕ) (r r' : QLearningRouter), 1 ≤ runs →
      QLearningRouter.run_multiple cfg cm g src dst demand O runs r =
      QLearningRouter.run_multiple cfg cm g src dst demand O runs r') ∧
    (∀ (g : Network) (s a : ℕ), qval (qrow (initQ g) s) a = 0) ∧
    (∀ (cfg : QCfg) (cm : CostModel) (g : Network) (src dst : ℕ) (demand : ℚ)
      (O : ℕ → ℕ → ℕ → Choice) (runs : ℕ) (r : QLearningRouter),
      ((QLearningRouter.run_multiple cfg cm g src dst demand O runs r).1 = none ↔
        ∀ j, j < runs → qlRunResult cfg cm g src dst demand O j = none) ∧
      (∀ p, (QLearningRouter.run_multiple cfg cm g src dst demand O runs r).1 = some p →
        demandOk (bottleneck0 g p) demand = true ∧
        ∀ j, j < runs → ∀ q, qlRunResult cfg cm g src dst demand O j = some q →
          cm.cost p ≤ cm.cost q)) := by
  refine ⟨?_, qval_initQ, ?_⟩
  · intro cfg cm g src dst demand O runs r r' h
    unfold QLearningRouter.run_multiple
    rw [runMultipleGo_indep cfg cm g src dst demand O runs 0 (none, none) r r' h]
  · intro cfg cm g src dst demand O runs r
    have hspec := runMultipleGo_spec cfg cm g src dst demand O runs 0 (none, none) r
      (fun _ => ⟨rfl, fun j hj => absurd hj (by omega)⟩)
      (fun p hp => absurd hp (by simp))
    rw [Nat.zero_add] at hspec
    have hfst : (QLearningRouter.run_multiple cfg cm g src dst demand O runs r).1 =
        (runMultipleGo cfg cm g src dst demand O runs 0 (none, none) r).1.1 := rfl
    constructor
    · rw [hfst]
      constructor
      · intro h
        exact (hspec.1 h).2
      · intro hall
        cases hres : (runMultipleGo cfg cm g src dst demand O runs 0 (none, none) r).1.1 with
        | none => rfl
        | some p =>
          rcases hspec.2 p hres with ⟨_, ⟨j, hj, hjr⟩, _⟩
          rw [hall j hj] at hjr
          exact absurd hjr (by simp)
    · intro p hp
      rw [hfst] at hp
      rcases hspec.2 p hp with ⟨_, ⟨j, hj, hjr⟩, hdom⟩
      have hfeas := (ql_train_invariant cfg cm g src dst demand (O j)
        ⟨initQ g, 1, none, none⟩ (QKeys_initQ g) (fun q hq => by simp at hq)).1 p hjr
      exact ⟨hfeas.1, hdom⟩

/-- Witness for the amended C5 on the concrete instance with one run: the
result is independent of the incoming state and dominates the single run. -/
theorem claim_C5_run_multiple_amended_w :
    QLearningRouter.run_multiple cfgW cmConst gW 0 1 0 OEx3 1
      ⟨[], 5, some [9], some 9⟩ =
    QLearningRouter.run_multiple cfgW cmConst gW 0 1 0 OEx3 1
      (QLearningRouter.init cfgW gW) :=
  claim_C5_run_multiple_amended.1 cfgW cmConst gW 0 1 0 OEx3 1
    ⟨[], 5, some [9], some 9⟩ (QLearningRouter.init cfgW gW) (by omega)
